import Mathlib

/-!
Shallow embedding of the brick-wall build-sequencing engine:
the Brick/Course/Wall data model (`src/brick.py`, `src/course.py`,
`src/wall.py`), the baseline scheduler (`src/algos/brick_by_brick.py`)
and the envelope-constrained scheduler
(`src/algos/limited_course_stride.py`).

Modelling conventions:
* Python `int` coordinates and lengths become `ℤ`; heights (which mix
  with the fractional bed-joint height) become `ℚ`.  All height
  arithmetic in the source stays on multiples of `1/2` far below `2^53`,
  where Python float arithmetic is exact, so `ℚ` is a faithful model.
* A brick's mutable `placed` flag and its mutable `stride_index` tag are
  the only fields a scheduler writes.  They are externalised into the
  scheduler state: `placed` is the list of brick ids in placement order
  (`b.placed` in Python is `b.bid ∈ placed`), and the tags are a map
  `ℕ → ℤ` (every brick starts at `-1`, as in `Brick.__init__`).
* `Brick.x_start`/`x_end` are `Optional[int]` in the source, `None`
  until `Course.append` assigns them.  The embedding uses plain `ℤ`
  (with the pre-assignment value irrelevant: `Course.append` overwrites
  it, and both schedulers and `assign_support_relations` only run on
  laid-out walls whose bricks went through `Course.append`).
-/

/-- Modelled from the spec: `config.py` is not under `src/`; these are the
modular brick/joint dimensions the spec describes (head-joint gap between
neighbouring bricks in a course, in mm). -/
def HEAD_JOINT_LENGTH : ℤ := 10

/-- Modelled from the spec: full brick length in mm (`config.py` missing). -/
def BRICK_LENGTH : ℤ := 210

/-- Modelled from the spec: half brick length in mm (`config.py` missing). -/
def HALF_BRICK_LENGTH : ℤ := 100

/-- Modelled from the spec: brick height in mm (`config.py` missing). -/
def BRICK_HEIGHT : ℚ := 50

/-- Modelled from the spec: bed joint height in mm (`config.py` missing). -/
def BED_JOINT_HEIGHT : ℚ := 25/2

/-- A brick (`src/brick.py`, class `Brick`).  `bid` stands for the object
identity of the Python `Brick`; the mutable `state` and `stride_index`
fields live in the scheduler state (see the module comment). -/
structure Brick where
  bid : ℕ
  length : ℤ
  row : ℤ := -1
  brick_index : ℤ := -1
  x_start : ℤ := 0
  x_end : ℤ := 0
  supports : List ℕ := []
  loads : List ℕ := []
deriving Repr, DecidableEq

/-- A course (`src/course.py`, class `Course`): a row of bricks plus the
`width_limit` passed to the constructor. -/
structure Course where
  width_limit : ℤ
  bricks : List Brick
deriving Repr, DecidableEq

/-- `Course.width`: sum of brick lengths plus one head joint per pair of
consecutive bricks.  Note that on an empty course this is
`-HEAD_JOINT_LENGTH`, exactly as in the source
(`HEAD_JOINT_LENGTH * (len(self) - 1)` with `len(self) = 0`). -/
def Course.width (c : Course) : ℤ :=
  (c.bricks.map (·.length)).sum + HEAD_JOINT_LENGTH * ((c.bricks.length : ℤ) - 1)

/-- `Course.can_fit` with the default `width=None` (the only way
`Course.append` calls it): required width is the brick length plus a head
joint when the course is nonempty. -/
def Course.can_fit (c : Course) (b : Brick) : Bool :=
  c.width + (b.length + (if c.bricks.isEmpty then 0 else HEAD_JOINT_LENGTH))
    ≤ c.width_limit

/-- `Course.append(brick, row)`: reject the brick if it does not fit,
otherwise assign `x_start` (0 for the first brick, previous brick's
`x_end` plus a head joint otherwise), `x_end`, `row` and `brick_index`,
and append. -/
def Course.append (c : Course) (b : Brick) (row : ℤ) : Bool × Course :=
  if ¬ c.can_fit b then (false, c)
  else
    let xs : ℤ := match c.bricks.getLast? with
      | none => 0
      | some last => last.x_end + HEAD_JOINT_LENGTH
    let b' : Brick :=
      { b with x_start := xs, x_end := xs + b.length, row := row,
               brick_index := (c.bricks.length : ℤ) }
    (true, { c with bricks := c.bricks ++ [b'] })

/-- A wall (`src/wall.py`, class `Wall`): width, height (already snapped
to modular sizes by the out-of-scope layout step) and bottom-to-top
courses. -/
structure Wall where
  width : ℤ
  height : ℚ
  courses : List Course
deriving Repr, DecidableEq

/-- All bricks of the wall, bottom-to-top, left-to-right (the iteration
order of `for course in self.courses for brick in course`). -/
def allBricks (w : Wall) : List Brick :=
  (w.courses.map (·.bricks)).flatten

/-- `Wall.complete`: every brick in every course is placed. -/
def wallComplete (w : Wall) (placed : List ℕ) : Bool :=
  (allBricks w).all (fun b => decide (b.bid ∈ placed))

/-- Overlap test from `Wall.assign_support_relations`: with
`left = brick.x_start + 1` and `right = brick.x_end - 1`, a brick `s` of
the course below supports `brick` iff
`not (s.x_end <= left or s.x_start >= right)`. -/
def overlapsBelow (brick s : Brick) : Bool :=
  ¬ (s.x_end ≤ brick.x_start + 1 ∨ s.x_start ≥ brick.x_end - 1)

/-- `Wall.assign_support_relations`: for every course except the ground
course, each brick's `supports` gains the ids of the overlapping bricks
of the course immediately below (in course order), and symmetrically each
brick's `loads` gains the ids of the overlapping bricks of the course
immediately above.  Walls with fewer than two courses are returned
unchanged (`if len(self.courses) < 2: return`). -/
def assignSupportRelations (w : Wall) : Wall :=
  if w.courses.length < 2 then w
  else
    { w with courses := (List.range w.courses.length).map (fun i =>
        let c := w.courses.getD i ⟨0, []⟩
        { c with bricks := c.bricks.map (fun b =>
            let sup : List ℕ :=
              if i = 0 then []
              else (((w.courses.getD (i-1) ⟨0, []⟩).bricks.filter
                      (fun s => overlapsBelow b s)).map (·.bid))
            let lds : List ℕ :=
              if i + 1 < w.courses.length then
                (((w.courses.getD (i+1) ⟨0, []⟩).bricks.filter
                    (fun t => overlapsBelow t b)).map (·.bid))
              else []
            { b with supports := b.supports ++ sup, loads := b.loads ++ lds }) }) }

/-! ## The baseline scheduler (`src/algos/brick_by_brick.py`) -/

/-- Mutable state of `BrickByBrick`: the wall's placement trace plus the
scheduler's `current_course` cursor (`sections` is `len(wall.courses)`,
recomputed from the static wall). -/
structure BState where
  placed : List ℕ
  current_course : ℕ
deriving Repr, DecidableEq

/-- The scheduler's initial state: fresh wall, cursor at course 0. -/
def bbbStart : BState := ⟨[], 0⟩

/-- `BrickByBrick.brick_condition`: unplaced, and on the ground row or all
supports placed. -/
def bbbCondition (placed : List ℕ) (b : Brick) : Bool :=
  if b.bid ∈ placed then false
  else if b.row = 0 then true
  else b.supports.all (fun sid => decide (sid ∈ placed))

/-- The `while self.current_course < self.sections` loop of
`BrickByBrick.next_brick`: scan the single-course subset at the cursor,
advancing the cursor past candidate-free courses. -/
def bbbFind (placed : List ℕ) : List Course → ℕ → Option (Brick × ℕ)
  | [], _ => none
  | c :: rest, cc =>
    match c.bricks.find? (bbbCondition placed) with
    | some b => some (b, cc)
    | none => bbbFind placed rest (cc + 1)

/-- `BrickByBrick.next_brick`: returns the first brick satisfying
`brick_condition` from `current_course` upwards, leaving the cursor on the
course where it was found; returns `none` with the cursor driven past the
last course when no candidate exists. -/
def bbbNext (w : Wall) (s : BState) : Option Brick × BState :=
  match bbbFind s.placed (w.courses.drop s.current_course) s.current_course with
  | some (b, cc') => (some b, { s with current_course := cc' })
  | none => (none, { s with current_course := max s.current_course w.courses.length })

/-- `BuildAlgorithm.place_next_brick`: fetch a candidate, place it if
present, report whether a placement occurred. -/
def bbbPlaceNext (w : Wall) (s : BState) : Bool × BState :=
  match bbbNext w s with
  | (some b, s') => (true, { s' with placed := s'.placed ++ [b.bid] })
  | (none, s') => (false, s')

/-- The external driver loop of claim C1: call `place_next_brick` until it
returns `False` (bounded by fuel; the theorems supply enough fuel). -/
def bbbRun (w : Wall) : ℕ → BState → BState
  | 0, s => s
  | f + 1, s =>
    match bbbPlaceNext w s with
    | (true, s') => bbbRun w f s'
    | (false, s') => s'

/-! ## The envelope-constrained scheduler
(`src/algos/limited_course_stride.py`) -/

/-- `Direction` (`L2R`/`R2L`). -/
inductive Direction where
  | L2R
  | R2L
deriving Repr, DecidableEq

/-- Immutable-after-construction data of `LimitedCourseStride`: the wall,
`max_courses`, the build envelope `(width, height)` and the `sections`
count computed in `__init__`. -/
structure LCfg where
  wall : Wall
  max_courses : ℤ
  env_w : ℤ
  env_h : ℤ
  sections : ℤ
deriving Repr

/-- Mutable state of `LimitedCourseStride`: the wall's placement trace
and stride tags plus the scheduler's cursors and counters. -/
structure LState where
  placed : List ℕ
  tags : ℕ → ℤ
  current_section : ℕ
  current_stride : ℤ
  platform_moves : ℕ
  current_stride_x_min : ℤ
  current_stride_y_min : ℚ
  direction : Direction

/-- `LimitedCourseStride.__init__`: `sections = ceil(len(wall.courses) /
max_courses)` (a `ZeroDivisionError` for `max_courses = 0`, modelled as
`none`); every counter starts at zero, the direction at `L2R`, and every
brick's `stride_index` at `-1`.  No configuration validation of any kind
is performed. -/
def lcsStart (w : Wall) (max_courses : ℤ) (env : ℤ × ℤ) :
    Option (LCfg × LState) :=
  if max_courses = 0 then none
  else some
    ({ wall := w, max_courses := max_courses, env_w := env.1, env_h := env.2,
       sections := Int.ceil ((w.courses.length : ℚ) / (max_courses : ℚ)) },
     { placed := [], tags := fun _ => -1, current_section := 0,
       current_stride := 0, platform_moves := 0, current_stride_x_min := 0,
       current_stride_y_min := 0, direction := Direction.L2R })

/-- `LimitedCourseStride._get_current_wall_subset`: the current section's
courses, reversed (top course first).  `Int.toNat` is harmless: the slice
is only ever taken on reachable calls, where `current_section < sections`
forces `max_courses ≥ 1`. -/
def wallSubset (cfg : LCfg) (s : LState) : List Course :=
  ((cfg.wall.courses.drop (s.current_section * cfg.max_courses.toNat)).take
      cfg.max_courses.toNat).reverse

/-- `LimitedCourseStride.get_directional_course`. -/
def directionalBricks (s : LState) (c : Course) : List Brick :=
  match s.direction with
  | Direction.L2R => c.bricks
  | Direction.R2L => c.bricks.reverse

/-- `LimitedCourseStride.brick_condition`: unplaced; strictly inside the
horizontal window `[x_min, x_min + envelope_width]` (with
`x_min ≤ x_start < x_max` and `x_min < x_end ≤ x_max`); and on the ground
row or with all supports placed. -/
def lcsCondition (cfg : LCfg) (s : LState) (b : Brick) : Bool :=
  if b.bid ∈ s.placed then false
  else
    let x_max := s.current_stride_x_min + cfg.env_w
    if ¬ (s.current_stride_x_min ≤ b.x_start ∧ b.x_start < x_max) then false
    else if ¬ (s.current_stride_x_min < b.x_end ∧ b.x_end ≤ x_max) then false
    else if b.row = 0 then true
    else b.supports.all (fun sid => decide (sid ∈ s.placed))

/-- The candidate scan of `LimitedCourseStride.next_brick`: iterate the
section's courses from lowest to highest (`reversed(wall_subset)`), each
in the current direction, and return the first brick satisfying
`brick_condition`. -/
def scanSection (cfg : LCfg) (s : LState) : Option Brick :=
  (((wallSubset cfg s).reverse).map (fun c => directionalBricks s c)).flatten.find?
    (lcsCondition cfg s)

/-- The local `section_height = max_courses * (BRICK_HEIGHT +
BED_JOINT_HEIGHT)` of `step_vertically`. -/
def sectionHeight (cfg : LCfg) : ℚ :=
  (cfg.max_courses : ℚ) * (BRICK_HEIGHT + BED_JOINT_HEIGHT)

/-- The local `reachable_height = current_stride_y_min +
build_envelope[1]` of `step_vertically`. -/
def reachableHeight (cfg : LCfg) (s : LState) : ℚ :=
  s.current_stride_y_min + (cfg.env_h : ℚ)

/-- The local `required_height = min((current_section + 1) *
section_height, wall.height)` of `step_vertically`, as a function of the
(already incremented) section index. -/
def requiredHeight (cfg : LCfg) (sec : ℕ) : ℚ :=
  min (((sec : ℚ) + 1) * sectionHeight cfg) cfg.wall.height

/-- `LimitedCourseStride.step_vertically`: advance `current_section`; fail
when past the last section; otherwise bump the platform if the required
height exceeds the reachable height (note the increment is
`required_height - section_height`, not the shortfall), then toggle the
direction and reset the horizontal origin to the matching edge. -/
def stepVertically (cfg : LCfg) (s : LState) : Bool × LState :=
  let s1 : LState := { s with current_section := s.current_section + 1 }
  if (s1.current_section : ℤ) ≥ cfg.sections then (false, s1)
  else
    let s2 : LState :=
      if requiredHeight cfg s1.current_section > reachableHeight cfg s1 then
        { s1 with
          current_stride_y_min :=
            s1.current_stride_y_min
              + (requiredHeight cfg s1.current_section - sectionHeight cfg),
          platform_moves := s1.platform_moves + 1 }
      else s1
    let s3 : LState :=
      match s2.direction with
      | Direction.R2L =>
          { s2 with direction := Direction.L2R, current_stride_x_min := 0 }
      | Direction.L2R =>
          { s2 with direction := Direction.R2L,
                    current_stride_x_min := max 0 (cfg.wall.width - cfg.env_w) }
    (true, s3)

/-- `LimitedCourseStride.step_horizontally`: slide the window from the
bricks already placed in the section's top course; fail (state unchanged)
when none is placed; increment `current_stride` only when the window
origin actually changes. -/
def stepHorizontally (cfg : LCfg) (s : LState) (top : Course) : Bool × LState :=
  match top.bricks.filter (fun b => decide (b.bid ∈ s.placed)) with
  | [] => (false, s)
  | p :: ps =>
    let max_left_origin : ℤ := max 0 (cfg.wall.width - cfg.env_w)
    let new_x_min : ℤ :=
      match s.direction with
      | Direction.L2R =>
          let candidate := (ps.foldl (fun a b => max a b.x_end) p.x_end)
            + HEAD_JOINT_LENGTH
          min max_left_origin (max 0 candidate)
      | Direction.R2L =>
          let right_edge_target := (ps.foldl (fun a b => min a b.x_start) p.x_start)
            - HEAD_JOINT_LENGTH
          min (max 0 (right_edge_target - cfg.env_w)) max_left_origin
    if new_x_min ≠ s.current_stride_x_min then
      (true, { s with current_stride_x_min := new_x_min,
                      current_stride := s.current_stride + 1 })
    else (true, s)

/-- Tagging side effect of `next_brick`:
`brick.stride_index = self.current_stride`. -/
def tagBrick (s : LState) (b : Brick) : LState :=
  { s with tags := fun i => if i = b.bid then s.current_stride else s.tags i }

/-- `brick.place()`. -/
def placeBrick (s : LState) (b : Brick) : LState :=
  { s with placed := s.placed ++ [b.bid] }

/-- `LimitedCourseStride.next_brick`, with fuel for the source's
unbounded `while` loop (`none` = the Python loop has not returned within
`fuel` iterations; the loop genuinely diverges on a stalled window whose
horizontal slide makes no progress).  On each iteration: scan the current
section; on a hit, tag and return the brick; otherwise advance vertically
when the section's top course is fully placed and horizontally when it is
not, returning `none` (completion or stall) when the step fails. -/
def nextBrickAux (cfg : LCfg) : ℕ → LState → Option (Option Brick × LState)
  | 0, _ => none
  | f + 1, s =>
    if (s.current_section : ℤ) < cfg.sections then
      match scanSection cfg s with
      | some b => some (some b, tagBrick s b)
      | none =>
        let top := (wallSubset cfg s).headD ⟨0, []⟩
        if top.bricks.all (fun b => decide (b.bid ∈ s.placed)) then
          match stepVertically cfg s with
          | (true, s') => nextBrickAux cfg f s'
          | (false, s') => some (none, s')
        else
          match stepHorizontally cfg s top with
          | (true, s') => nextBrickAux cfg f s'
          | (false, s') => some (none, s')
    else some (none, s)

/-- `BuildAlgorithm.place_next_brick` for the envelope scheduler. -/
def lcsPlaceNext (cfg : LCfg) (fuel : ℕ) (s : LState) :
    Option (Bool × LState) :=
  match nextBrickAux cfg fuel s with
  | none => none
  | some (none, s') => some (false, s')
  | some (some b, s') => some (true, placeBrick s' b)

/-- The loop of `LimitedCourseStride.complete_stride` with the observed
`start_stride` as a parameter and `placed` as an accumulator. -/
def completeStrideAux (cfg : LCfg) (start_stride : ℤ) :
    ℕ → ℕ → LState → Option (ℕ × LState)
  | 0, _, _ => none
  | f + 1, count, s =>
    match nextBrickAux cfg (f + 1) s with
    | none => none
    | some (none, s') => some (count, s')
    | some (some b, s') =>
      if s'.tags b.bid ≠ start_stride then some (count, s')
      else completeStrideAux cfg start_stride f (count + 1) (placeBrick s' b)

/-- `LimitedCourseStride.complete_stride`: place candidates while their
tagged stride equals the stride observed at the start of the call; stop
(without placing) on the first candidate of a later stride or when none
remains; return the number placed. -/
def completeStride (cfg : LCfg) (fuel : ℕ) (s : LState) :
    Option (ℕ × LState) :=
  completeStrideAux cfg s.current_stride fuel 0 s

/-- Result record of `LimitedCourseStride.statistics`. -/
structure LcsStatistics where
  total_robot_moves : ℤ
  total_platform_moves : ℕ
  average_bricks_per_stride : ℚ
  total_bricks : ℕ
  total_brick_length : ℤ
  total_courses : ℕ
deriving Repr, DecidableEq

/-- `LimitedCourseStride.statistics`: with `strides = current_stride + 1`,
report `total_robot_moves = strides - 1`, the platform move count,
`average_bricks_per_stride = total_bricks / strides` (0 when
`strides ≤ 0`), and the placed-brick totals.  Python's float division is
modelled as exact division in `ℚ`. -/
def lcsStatistics (cfg : LCfg) (s : LState) : LcsStatistics :=
  let strides : ℤ := s.current_stride + 1
  let bricks := (allBricks cfg.wall).filter (fun b => decide (b.bid ∈ s.placed))
  { total_robot_moves := strides - 1,
    total_platform_moves := s.platform_moves,
    average_bricks_per_stride :=
      if strides > 0 then (bricks.length : ℚ) / (strides : ℚ) else 0,
    total_bricks := bricks.length,
    total_brick_length := (bricks.map (·.length)).sum,
    total_courses := cfg.wall.courses.length }

/-! ## Concrete instances used by counterexamples and witnesses -/

/-- A two-course wall of height 100 used for claim C6. -/
def wallC6 : Wall := ⟨100, 100, [⟨0, []⟩, ⟨0, []⟩]⟩

/-- Envelope-scheduler configuration over `wallC6`: one course per
section, envelope `(50, 10)` (so `sections = 2`). -/
def cfgC6 : LCfg :=
  { wall := wallC6, max_courses := 1, env_w := 50, env_h := 10, sections := 2 }

/-- The freshly constructed scheduler state over `cfgC6`. -/
def stC6 : LState where
  placed := []
  tags := fun _ => -1
  current_section := 0
  current_stride := 0
  platform_moves := 0
  current_stride_x_min := 0
  current_stride_y_min := 0
  direction := Direction.L2R

/-- A one-course, one-brick wall used for claim C8. -/
def wallC8 : Wall :=
  ⟨210, 125/2, [⟨210, [{ bid := 0, length := 210, row := 0, x_start := 0, x_end := 210 }]⟩]⟩

/-- The configuration `LimitedCourseStride(wallC8, 4, (800, 1300))`
produces. -/
def cfgC8 : LCfg :=
  { wall := wallC8, max_courses := 4, env_w := 800, env_h := 1300, sections := 1 }

/-- The freshly constructed scheduler state over `cfgC8`. -/
def stC8 : LState where
  placed := []
  tags := fun _ => -1
  current_section := 0
  current_stride := 0
  platform_moves := 0
  current_stride_x_min := 0
  current_stride_y_min := 0
  direction := Direction.L2R

/-! ## Claim C5 -/

/-- C5: the claim that the total occupied width of a course never exceeds
`width_limit` fails at the first append: an empty course reports width
`-HEAD_JOINT_LENGTH`, so `can_fit` accepts a first brick up to
`HEAD_JOINT_LENGTH` longer than the limit.  Here `Course(width=205)`
accepts a 210 mm brick and ends up wider than its limit, contradicting
the claim (and the class docstring, which promises that bricks are only
placed if they fit within the specified width). -/
theorem course_append_exceeds_width_limit :
    ((Course.mk 205 []).append { bid := 0, length := 210 } 0).1 = true ∧
    ((Course.mk 205 []).append { bid := 0, length := 210 } 0).2.width = 210 ∧
    ¬ (((Course.mk 205 []).append { bid := 0, length := 210 } 0).2.width
        ≤ (Course.mk 205 []).width_limit) := by
  refine ⟨by decide, by decide, by decide⟩

/-! ## Claim C6 -/

/-- C6 counterexample: from the fresh state over `cfgC6`,
`step_vertically` advances to section 1, the required height
(`min(2 * 62.5, 100) = 100`) exceeds the reachable height
(`0 + 10 = 10`) and the platform moves — but `y_min` becomes
`100 - 62.5 = 37.5`, not `y_min + shortfall = 0 + (100 - 10) = 90` as the
claim states. -/
theorem step_vertically_shortfall_counterexample :
    (stepVertically cfgC6 stC6).1 = true ∧
    requiredHeight cfgC6 (stC6.current_section + 1) > reachableHeight cfgC6 stC6 ∧
    (stepVertically cfgC6 stC6).2.platform_moves = stC6.platform_moves + 1 ∧
    (stepVertically cfgC6 stC6).2.current_stride_y_min = 75/2 ∧
    stC6.current_stride_y_min
        + (requiredHeight cfgC6 (stC6.current_section + 1) - reachableHeight cfgC6 stC6)
      = 90 ∧
    (75/2 : ℚ) ≠ 90 := by
  refine ⟨?_, ?_, ?_, ?_, ?_, by norm_num⟩ <;>
    norm_num [stepVertically, requiredHeight, reachableHeight, sectionHeight,
      cfgC6, stC6, wallC6, BRICK_HEIGHT, BED_JOINT_HEIGHT]

/-- C6 amended: whenever `step_vertically` advances to a new section
whose required height exceeds the reachable height, the platform `y_min`
increases by exactly `required_height - section_height` (not by the
shortfall `required_height - reachable_height`) and `platform_moves`
increments by one; when the required height does not exceed the reachable
height, both are unchanged. -/
theorem step_vertically_platform_increment (cfg : LCfg) (s : LState)
    (hadv : ((s.current_section : ℤ) + 1) < cfg.sections) :
    (stepVertically cfg s).1 = true ∧
    (requiredHeight cfg (s.current_section + 1) > reachableHeight cfg s →
      (stepVertically cfg s).2.current_stride_y_min
          = s.current_stride_y_min
            + (requiredHeight cfg (s.current_section + 1) - sectionHeight cfg) ∧
      (stepVertically cfg s).2.platform_moves = s.platform_moves + 1) ∧
    (requiredHeight cfg (s.current_section + 1) ≤ reachableHeight cfg s →
      (stepVertically cfg s).2.current_stride_y_min = s.current_stride_y_min ∧
      (stepVertically cfg s).2.platform_moves = s.platform_moves) := by
  have hc : ¬ (((s.current_section + 1 : ℕ) : ℤ) ≥ cfg.sections) := by
    push_cast
    omega
  have hre : reachableHeight cfg { s with current_section := s.current_section + 1 }
      = reachableHeight cfg s := rfl
  simp only [stepVertically, hc, if_false, hre]
  by_cases hmv : requiredHeight cfg (s.current_section + 1) > reachableHeight cfg s
  · rw [if_pos hmv]
    cases hdir : s.direction <;>
      simp [hdir, hmv, le_of_lt, not_le.mpr hmv]
  · rw [if_neg hmv]
    cases hdir : s.direction <;>
      simp [hdir, hmv]

/-- Witness for `step_vertically_platform_increment` at the concrete
configuration `cfgC6`/`stC6`. -/
theorem step_vertically_platform_increment_witness :
    (((stC6.current_section : ℤ) + 1) < cfgC6.sections) ∧
    ((stepVertically cfgC6 stC6).1 = true ∧
      (requiredHeight cfgC6 (stC6.current_section + 1) > reachableHeight cfgC6 stC6 →
        (stepVertically cfgC6 stC6).2.current_stride_y_min
            = stC6.current_stride_y_min
              + (requiredHeight cfgC6 (stC6.current_section + 1) - sectionHeight cfgC6) ∧
        (stepVertically cfgC6 stC6).2.platform_moves = stC6.platform_moves + 1) ∧
      (requiredHeight cfgC6 (stC6.current_section + 1) ≤ reachableHeight cfgC6 stC6 →
        (stepVertically cfgC6 stC6).2.current_stride_y_min = stC6.current_stride_y_min ∧
        (stepVertically cfgC6 stC6).2.platform_moves = stC6.platform_moves)) :=
  ⟨by norm_num [stC6, cfgC6],
   step_vertically_platform_increment cfgC6 stC6 (by norm_num [stC6, cfgC6])⟩

/-! ## Claim C8 -/

/-- C8 counterexample: at the freshly constructed scheduler (a reachable
snapshot, produced here by the constructor itself), `current_stride` — the
scheduler's stride counter — is 0, so the claim demands
`total_robot_moves = 0 - 1 = -1`; the code reports
`(current_stride + 1) - 1 = 0`. -/
theorem lcs_statistics_off_by_one_counterexample :
    lcsStart wallC8 4 (800, 1300) = some (cfgC8, stC8) ∧
    (lcsStatistics cfgC8 stC8).total_robot_moves = 0 ∧
    stC8.current_stride - 1 = -1 ∧
    (0 : ℤ) ≠ -1 := by
  refine ⟨?_, ?_, ?_, by decide⟩
  · simp only [lcsStart, if_neg (by norm_num : ¬ (4 : ℤ) = 0)]
    norm_num [wallC8, cfgC8, stC8]
    norm_num [Int.ceil_eq_iff]
  · simp [lcsStatistics, cfgC8, stC8]
  · simp [stC8]

/-- C8 amended: at every point in a run, `statistics()` reports
`total_robot_moves` equal to the stride counter (`current_stride`, not
`current_stride - 1`) and `average_bricks_per_stride` equal to the placed
brick count divided by `current_stride + 1` (the number of strides so
far), not by `current_stride`. -/
theorem lcs_statistics_snapshot (cfg : LCfg) (s : LState)
    (h : 0 ≤ s.current_stride) :
    (lcsStatistics cfg s).total_robot_moves = s.current_stride ∧
    (lcsStatistics cfg s).average_bricks_per_stride =
      ((((allBricks cfg.wall).filter
          (fun b => decide (b.bid ∈ s.placed))).length : ℚ))
        / ((s.current_stride : ℚ) + 1) := by
  constructor
  · simp [lcsStatistics]
  · have hpos : s.current_stride + 1 > 0 := by omega
    simp only [lcsStatistics, hpos, if_pos]
    push_cast
    ring_nf

/-- Witness for `lcs_statistics_snapshot` at the fresh scheduler state
over `cfgC8`. -/
theorem lcs_statistics_snapshot_witness :
    (0 ≤ stC8.current_stride) ∧
    ((lcsStatistics cfgC8 stC8).total_robot_moves = stC8.current_stride ∧
     (lcsStatistics cfgC8 stC8).average_bricks_per_stride =
      ((((allBricks cfgC8.wall).filter
          (fun b => decide (b.bid ∈ stC8.placed))).length : ℚ))
        / ((stC8.current_stride : ℚ) + 1)) :=
  ⟨by norm_num [stC8], lcs_statistics_snapshot cfgC8 stC8 (by norm_num [stC8])⟩

/-! ## Claim C9 -/

/-- C9 counterexample: a wall with zero courses, `max_courses = -1 ≤ 0`
and a build envelope `(1, 1)` far below any brick-plus-joint footprint
violates all three configuration conditions of the claim, yet the
constructor happily creates scheduling state (no error is reported
anywhere). -/
theorem lcs_constructor_accepts_invalid_config :
    (Wall.mk 0 0 []).courses.length = 0 ∧
    (-1 : ℤ) ≤ 0 ∧
    (1 : ℤ) < HEAD_JOINT_LENGTH ∧
    (lcsStart (Wall.mk 0 0 []) (-1) (1, 1)).isSome = true := by
  refine ⟨rfl, by decide, by decide, ?_⟩
  simp [lcsStart]

/-- C9 amended: the envelope-scheduler constructor performs no
configuration validation whatsoever: scheduling state is created for
undersized envelopes, non-positive `max_courses` and zero-course walls
alike.  The only failing input is `max_courses = 0`, which dies with an
incidental `ZeroDivisionError` while computing the section count. -/
theorem lcs_constructor_no_validation (w : Wall) (mc : ℤ) (env : ℤ × ℤ) :
    (lcsStart w mc env).isSome ↔ mc ≠ 0 := by
  by_cases h : mc = 0 <;> simp [lcsStart, h]

/-- Witness for `lcs_constructor_no_validation` at a concrete
configuration. -/
theorem lcs_constructor_no_validation_witness :
    ((4 : ℤ) ≠ 0) ∧ (lcsStart wallC8 4 (800, 1300)).isSome :=
  ⟨by decide, (lcs_constructor_no_validation wallC8 4 (800, 1300)).mpr (by decide)⟩

/-! ## Claim C10 -/

/-- C10: a zero-course wall is vacuously `complete`, and the first
`next_brick` call of either scheduler returns `None` without touching any
state: the build is silently treated as already finished rather than
rejected. -/
theorem zero_course_wall_silently_finished (w : Wall) (h : w.courses = []) :
    wallComplete w [] = true ∧
    bbbNext w bbbStart = (none, bbbStart) ∧
    (∀ (mc : ℤ) (env : ℤ × ℤ) (cfg : LCfg) (s0 : LState),
      lcsStart w mc env = some (cfg, s0) →
      ∀ f : ℕ, nextBrickAux cfg (f + 1) s0 = some (none, s0)) := by
  refine ⟨?_, ?_, ?_⟩
  · simp [wallComplete, allBricks, h]
  · simp [bbbNext, bbbFind, bbbStart, h]
  · intro mc env cfg s0 hstart f
    by_cases hmc : mc = 0
    · simp [lcsStart, hmc] at hstart
    · rw [lcsStart, if_neg hmc] at hstart
      injection hstart with h2
      injection h2 with hcfg hs0
      subst hcfg
      subst hs0
      simp [nextBrickAux, h]

/-- Witness for `zero_course_wall_silently_finished` at the empty wall. -/
theorem zero_course_wall_silently_finished_witness :
    ((Wall.mk 0 0 []).courses = ([] : List Course)) ∧
    (wallComplete (Wall.mk 0 0 []) [] = true ∧
     bbbNext (Wall.mk 0 0 []) bbbStart = (none, bbbStart) ∧
     (∀ (mc : ℤ) (env : ℤ × ℤ) (cfg : LCfg) (s0 : LState),
       lcsStart (Wall.mk 0 0 []) mc env = some (cfg, s0) →
       ∀ f : ℕ, nextBrickAux cfg (f + 1) s0 = some (none, s0))) :=
  ⟨rfl, zero_course_wall_silently_finished (Wall.mk 0 0 []) rfl⟩

/-! ## Helper lemmas about the envelope scheduler's step functions -/

/-- One-step case analysis of `nextBrickAux` at positive fuel. -/
lemma nextBrickAux_succ_cases (cfg : LCfg) (f : ℕ) (s : LState)
    (o : Option Brick) (s' : LState)
    (h : nextBrickAux cfg (f + 1) s = some (o, s')) :
    (¬ ((s.current_section : ℤ) < cfg.sections) ∧ o = none ∧ s' = s) ∨
    (((s.current_section : ℤ) < cfg.sections) ∧
      ∃ b, scanSection cfg s = some b ∧ o = some b ∧ s' = tagBrick s b) ∨
    (((s.current_section : ℤ) < cfg.sections) ∧ scanSection cfg s = none ∧
      (((wallSubset cfg s).headD ⟨0, []⟩).bricks.all
          (fun b => decide (b.bid ∈ s.placed)) = true) ∧
      ∃ s1, (stepVertically cfg s = (true, s1) ∧ nextBrickAux cfg f s1 = some (o, s')) ∨
            (stepVertically cfg s = (false, s1) ∧ o = none ∧ s' = s1)) ∨
    (((s.current_section : ℤ) < cfg.sections) ∧ scanSection cfg s = none ∧
      ¬ (((wallSubset cfg s).headD ⟨0, []⟩).bricks.all
          (fun b => decide (b.bid ∈ s.placed)) = true) ∧
      ∃ s1, (stepHorizontally cfg s ((wallSubset cfg s).headD ⟨0, []⟩) = (true, s1) ∧
              nextBrickAux cfg f s1 = some (o, s')) ∨
            (stepHorizontally cfg s ((wallSubset cfg s).headD ⟨0, []⟩) = (false, s1) ∧
              o = none ∧ s' = s1)) := by
  rw [nextBrickAux] at h
  by_cases hsec : (s.current_section : ℤ) < cfg.sections
  · rw [if_pos hsec] at h
    cases hscan : scanSection cfg s with
    | some b =>
      rw [hscan] at h
      simp only [Option.some.injEq, Prod.mk.injEq] at h
      exact Or.inr (Or.inl ⟨hsec, b, rfl, h.1.symm, h.2.symm⟩)
    | none =>
      rw [hscan] at h
      dsimp only at h
      by_cases hall : (((wallSubset cfg s).headD ⟨0, []⟩).bricks.all
          (fun b => decide (b.bid ∈ s.placed)) = true)
      · rw [if_pos hall] at h
        rcases hv : stepVertically cfg s with ⟨ok, s1⟩
        rw [hv] at h
        cases ok
        · dsimp only at h
          simp only [Option.some.injEq, Prod.mk.injEq] at h
          exact Or.inr (Or.inr (Or.inl ⟨hsec, rfl, hall, s1,
            Or.inr ⟨rfl, h.1.symm, h.2.symm⟩⟩))
        · dsimp only at h
          exact Or.inr (Or.inr (Or.inl ⟨hsec, rfl, hall, s1, Or.inl ⟨rfl, h⟩⟩))
      · rw [if_neg hall] at h
        rcases hh : stepHorizontally cfg s ((wallSubset cfg s).headD ⟨0, []⟩) with ⟨ok, s1⟩
        rw [hh] at h
        cases ok
        · dsimp only at h
          simp only [Option.some.injEq, Prod.mk.injEq] at h
          exact Or.inr (Or.inr (Or.inr ⟨hsec, rfl, hall, s1,
            Or.inr ⟨rfl, h.1.symm, h.2.symm⟩⟩))
        · dsimp only at h
          exact Or.inr (Or.inr (Or.inr ⟨hsec, rfl, hall, s1, Or.inl ⟨rfl, h⟩⟩))
  · rw [if_neg hsec] at h
    simp only [Option.some.injEq, Prod.mk.injEq] at h
    exact Or.inl ⟨hsec, h.1.symm, h.2.symm⟩

/-- The section advance never touches the placement trace. -/
lemma stepVertically_placed (cfg : LCfg) (s : LState) :
    ((stepVertically cfg s).2).placed = s.placed := by
  unfold stepVertically
  dsimp only
  split
  · rfl
  · split <;> split <;> rfl

/-- The section advance never touches the stride tags. -/
lemma stepVertically_tags (cfg : LCfg) (s : LState) :
    ((stepVertically cfg s).2).tags = s.tags := by
  unfold stepVertically
  dsimp only
  split
  · rfl
  · split <;> split <;> rfl

/-- The horizontal slide never touches the placement trace. -/
lemma stepHorizontally_placed (cfg : LCfg) (s : LState) (top : Course) :
    ((stepHorizontally cfg s top).2).placed = s.placed := by
  unfold stepHorizontally
  split
  · rfl
  · dsimp only
    split <;> rfl

/-- The horizontal slide never touches the stride tags. -/
lemma stepHorizontally_tags (cfg : LCfg) (s : LState) (top : Course) :
    ((stepHorizontally cfg s top).2).tags = s.tags := by
  unfold stepHorizontally
  split
  · rfl
  · dsimp only
    split <;> rfl

/-- Failure inversion for the section advance: it fails exactly when the
incremented section index is past the last section, leaving only that
increment behind. -/
lemma stepVertically_false_inv (cfg : LCfg) (s s1 : LState)
    (h : stepVertically cfg s = (false, s1)) :
    s1 = { s with current_section := s.current_section + 1 } ∧
    ((s.current_section + 1 : ℕ) : ℤ) ≥ cfg.sections := by
  unfold stepVertically at h
  dsimp only at h
  split at h
  · rename_i hge
    injection h with h1 h2
    exact ⟨h2.symm, hge⟩
  · split at h <;> split at h <;> simp at h

/-- Failure inversion for the horizontal slide: it fails with the state
unchanged (when no brick of the top course is placed). -/
lemma stepHorizontally_false_inv (cfg : LCfg) (s : LState) (top : Course)
    (s1 : LState) (h : stepHorizontally cfg s top = (false, s1)) :
    s1 = s := by
  unfold stepHorizontally at h
  split at h
  · injection h with h1 h2
    exact h2.symm
  · dsimp only at h
    split at h <;> simp at h

/-- Re-tagging the same brick with the same stride is a no-op. -/
lemma tagBrick_idem (s : LState) (b : Brick) :
    tagBrick (tagBrick s b) b = tagBrick s b := by
  unfold tagBrick
  congr 1
  funext i
  by_cases hi : i = b.bid <;> simp [hi]

/-- `next_brick` never touches the placement trace. -/
lemma nextBrickAux_placed (cfg : LCfg) :
    ∀ (f : ℕ) (s : LState) (o : Option Brick) (s' : LState),
      nextBrickAux cfg f s = some (o, s') → s'.placed = s.placed := by
  intro f
  induction f with
  | zero => intro s o s' h; simp [nextBrickAux] at h
  | succ f ih =>
    intro s o s' h
    rcases nextBrickAux_succ_cases cfg f s o s' h with
      ⟨_, _, rfl⟩ | ⟨_, b, _, _, rfl⟩ |
      ⟨_, _, _, s1, ⟨hv, hrec⟩ | ⟨hv, _, rfl⟩⟩ |
      ⟨_, _, _, s1, ⟨hh, hrec⟩ | ⟨hh, _, rfl⟩⟩
    · rfl
    · rfl
    · have h1 := stepVertically_placed cfg s
      rw [hv] at h1
      rw [ih s1 o s' hrec, h1]
    · have h1 := stepVertically_placed cfg s
      rw [hv] at h1
      exact h1
    · have h1 := stepHorizontally_placed cfg s ((wallSubset cfg s).headD ⟨0, []⟩)
      rw [hh] at h1
      rw [ih s1 o s' hrec, h1]
    · have h1 := stepHorizontally_placed cfg s ((wallSubset cfg s).headD ⟨0, []⟩)
      rw [hh] at h1
      exact h1

/-- `next_brick` only (re-)tags bricks it returns, which are unplaced, so
the tags of already-placed ids survive any `next_brick` call. -/
lemma nextBrickAux_tags_of_placed (cfg : LCfg) :
    ∀ (f : ℕ) (s : LState) (o : Option Brick) (s' : LState),
      nextBrickAux cfg f s = some (o, s') →
      ∀ id ∈ s.placed, s'.tags id = s.tags id := by
  intro f
  induction f with
  | zero => intro s o s' h; simp [nextBrickAux] at h
  | succ f ih =>
    intro s o s' h id hid
    rcases nextBrickAux_succ_cases cfg f s o s' h with
      ⟨_, _, rfl⟩ | ⟨_, b, hscan, _, rfl⟩ |
      ⟨_, _, _, s1, ⟨hv, hrec⟩ | ⟨hv, _, rfl⟩⟩ |
      ⟨_, _, _, s1, ⟨hh, hrec⟩ | ⟨hh, _, rfl⟩⟩
    · rfl
    · -- the scanned brick is unplaced, hence its id differs from `id`
      have hcond : lcsCondition cfg s b = true := by
        have := List.find?_some hscan
        exact this
      have hbid : ¬ b.bid ∈ s.placed := by
        intro hmem
        rw [lcsCondition, if_pos hmem] at hcond
        exact Bool.false_ne_true hcond
      show (tagBrick s b).tags id = s.tags id
      unfold tagBrick
      dsimp only
      rw [if_neg]
      intro hEq
      exact hbid (hEq ▸ hid)
    · have h1 := stepVertically_placed cfg s
      have h2 := stepVertically_tags cfg s
      rw [hv] at h1 h2
      have := ih s1 o s' hrec id (by rw [h1]; exact hid)
      rw [this, h2]
    · have h2 := stepVertically_tags cfg s
      rw [hv] at h2
      rw [h2]
    · have h1 := stepHorizontally_placed cfg s ((wallSubset cfg s).headD ⟨0, []⟩)
      have h2 := stepHorizontally_tags cfg s ((wallSubset cfg s).headD ⟨0, []⟩)
      rw [hh] at h1 h2
      have := ih s1 o s' hrec id (by rw [h1]; exact hid)
      rw [this, h2]
    · have h2 := stepHorizontally_tags cfg s ((wallSubset cfg s).headD ⟨0, []⟩)
      rw [hh] at h2
      rw [h2]

/-- Results of `next_brick` are stable under extra fuel. -/
lemma nextBrickAux_mono (cfg : LCfg) :
    ∀ (f : ℕ) (s : LState) (r : Option Brick × LState),
      nextBrickAux cfg f s = some r → ∀ f', f ≤ f' → nextBrickAux cfg f' s = some r := by
  intro f
  induction f with
  | zero => intro s r h; simp [nextBrickAux] at h
  | succ f ih =>
    intro s r h f' hle
    obtain ⟨f', rfl⟩ : ∃ g, f' = g + 1 := ⟨f' - 1, by omega⟩
    have hle' : f ≤ f' := by omega
    obtain ⟨o, s'⟩ := r
    rcases nextBrickAux_succ_cases cfg f s o s' h with
      ⟨hsec, rfl, rfl⟩ | ⟨hsec, b, hscan, rfl, rfl⟩ |
      ⟨hsec, hscan, hall, s1, ⟨hv, hrec⟩ | ⟨hv, rfl, rfl⟩⟩ |
      ⟨hsec, hscan, hall, s1, ⟨hh, hrec⟩ | ⟨hh, rfl, rfl⟩⟩
    · rw [nextBrickAux, if_neg hsec]
    · rw [nextBrickAux, if_pos hsec, hscan]
    · rw [nextBrickAux, if_pos hsec, hscan]
      dsimp only
      rw [if_pos hall, hv]
      exact ih s1 (o, s') hrec f' hle'
    · rw [nextBrickAux, if_pos hsec, hscan]
      dsimp only
      rw [if_pos hall, hv]
    · rw [nextBrickAux, if_pos hsec, hscan]
      dsimp only
      rw [if_neg hall, hh]
      exact ih s1 (o, s') hrec f' hle'
    · rw [nextBrickAux, if_pos hsec, hscan]
      dsimp only
      rw [if_neg hall, hh]

/-- Any brick found by the section scan lies in the wall. -/
lemma scanSection_mem (cfg : LCfg) (s : LState) (b : Brick)
    (h : scanSection cfg s = some b) : b ∈ allBricks cfg.wall := by
  have hmem := List.mem_of_find?_eq_some h
  rw [List.mem_flatten] at hmem
  obtain ⟨l, hl, hbl⟩ := hmem
  rw [List.mem_map] at hl
  obtain ⟨c, hc, rfl⟩ := hl
  have hcw : c ∈ cfg.wall.courses := by
    have h1 : c ∈ wallSubset cfg s := List.mem_reverse.mp hc
    unfold wallSubset at h1
    have h2 := List.mem_reverse.mp h1
    exact List.mem_of_mem_drop (List.mem_of_mem_take h2)
  have hbb : b ∈ c.bricks := by
    unfold directionalBricks at hbl
    rcases hd : s.direction
    · rw [hd] at hbl
      exact hbl
    · rw [hd] at hbl
      exact List.mem_reverse.mp hbl
  unfold allBricks
  rw [List.mem_flatten]
  exact ⟨c.bricks, List.mem_map.mpr ⟨c, hcw, rfl⟩, hbb⟩

/-- Specification of a successful `next_brick`: the returned brick
satisfies `brick_condition` in the returned state, is a wall brick, and
carries the current stride as its tag. -/
lemma nextBrickAux_some_spec (cfg : LCfg) :
    ∀ (f : ℕ) (s : LState) (b : Brick) (s' : LState),
      nextBrickAux cfg f s = some (some b, s') →
      lcsCondition cfg s' b = true ∧
      s'.tags b.bid = s'.current_stride ∧
      b ∈ allBricks cfg.wall := by
  intro f
  induction f with
  | zero => intro s b s' h; simp [nextBrickAux] at h
  | succ f ih =>
    intro s b s' h
    rcases nextBrickAux_succ_cases cfg f s (some b) s' h with
      ⟨_, hno, _⟩ | ⟨_, b2, hscan, hob, rfl⟩ |
      ⟨_, _, _, s1, ⟨hv, hrec⟩ | ⟨hv, hno, _⟩⟩ |
      ⟨_, _, _, s1, ⟨hh, hrec⟩ | ⟨hh, hno, _⟩⟩
    · exact absurd hno (by simp)
    · injection hob with hb
      subst hb
      refine ⟨?_, ?_, scanSection_mem cfg s b hscan⟩
      · have hcond : lcsCondition cfg s b = true := List.find?_some hscan
        exact hcond
      · show (tagBrick s b).tags b.bid = (tagBrick s b).current_stride
        unfold tagBrick
        dsimp only
        rw [if_pos rfl]
    · exact ih s1 b s' hrec
    · exact absurd hno (by simp)
    · exact ih s1 b s' hrec
    · exact absurd hno (by simp)

/-- A successful `next_brick` is idempotent: calling it again from the
returned state finds the same brick immediately and changes nothing. -/
lemma nextBrickAux_some_stable (cfg : LCfg) :
    ∀ (f : ℕ) (s : LState) (b : Brick) (s' : LState),
      nextBrickAux cfg f s = some (some b, s') →
      ∀ f' : ℕ, nextBrickAux cfg (f' + 1) s' = some (some b, s') := by
  intro f
  induction f with
  | zero => intro s b s' h; simp [nextBrickAux] at h
  | succ f ih =>
    intro s b s' h f'
    rcases nextBrickAux_succ_cases cfg f s (some b) s' h with
      ⟨_, hno, _⟩ | ⟨hsec, b2, hscan, hob, rfl⟩ |
      ⟨_, _, _, s1, ⟨hv, hrec⟩ | ⟨hv, hno, _⟩⟩ |
      ⟨_, _, _, s1, ⟨hh, hrec⟩ | ⟨hh, hno, _⟩⟩
    · exact absurd hno (by simp)
    · injection hob with hb
      subst hb
      have hsec' : ((tagBrick s b).current_section : ℤ) < cfg.sections := hsec
      have hscan' : scanSection cfg (tagBrick s b) = some b := hscan
      rw [nextBrickAux, if_pos hsec', hscan']
      dsimp only
      rw [tagBrick_idem]
    · exact ih s1 b s' hrec f'
    · exact absurd hno (by simp)
    · exact ih s1 b s' hrec f'
    · exact absurd hno (by simp)

/-- A `next_brick` that reports no candidate is stable: calling it again
from the returned state reports no candidate again and changes nothing. -/
lemma nextBrickAux_none_stable (cfg : LCfg) :
    ∀ (f : ℕ) (s : LState) (s' : LState),
      nextBrickAux cfg f s = some (none, s') →
      ∀ f' : ℕ, nextBrickAux cfg (f' + 1) s' = some (none, s') := by
  intro f
  induction f with
  | zero => intro s s' h; simp [nextBrickAux] at h
  | succ f ih =>
    intro s s' h f'
    rcases nextBrickAux_succ_cases cfg f s none s' h with
      ⟨hsec, _, rfl⟩ | ⟨_, b2, _, hob, _⟩ |
      ⟨hsec, hscan, hall, s1, ⟨hv, hrec⟩ | ⟨hv, _, rfl⟩⟩ |
      ⟨hsec, hscan, hall, s1, ⟨hh, hrec⟩ | ⟨hh, _, rfl⟩⟩
    · rw [nextBrickAux, if_neg hsec]
    · exact absurd hob (by simp)
    · exact ih s1 s' hrec f'
    · obtain ⟨rfl, hge⟩ := stepVertically_false_inv cfg s s' hv
      rw [nextBrickAux]
      rw [if_neg (not_lt.mpr hge)]
    · exact ih s1 s' hrec f'
    · have hs1 : s' = s := stepHorizontally_false_inv cfg s _ s' hh
      subst hs1
      rw [nextBrickAux, if_pos hsec, hscan]
      dsimp only
      rw [if_neg hall, hh]

/-- Restarting `bbbFind` at the course where it found its result finds
the same result. -/
lemma bbbFind_restart (placed : List ℕ) :
    ∀ (rest : List Course) (cc : ℕ) (b : Brick) (cc' : ℕ),
      bbbFind placed rest cc = some (b, cc') →
      cc ≤ cc' ∧ bbbFind placed (rest.drop (cc' - cc)) cc' = some (b, cc') := by
  intro rest
  induction rest with
  | nil => intro cc b cc' h; simp [bbbFind] at h
  | cons c rest ih =>
    intro cc b cc' h
    rw [bbbFind] at h
    cases hf : c.bricks.find? (bbbCondition placed) with
    | some b0 =>
      rw [hf] at h
      injection h with h1
      injection h1 with hb hcc
      subst hb
      subst hcc
      refine ⟨le_refl _, ?_⟩
      simp only [Nat.sub_self, List.drop_zero]
      rw [bbbFind, hf]
    | none =>
      rw [hf] at h
      obtain ⟨hle, hfind⟩ := ih (cc + 1) b cc' h
      refine ⟨by omega, ?_⟩
      have hstep : (c :: rest).drop (cc' - cc) = rest.drop (cc' - (cc + 1)) := by
        have : cc' - cc = (cc' - (cc + 1)) + 1 := by omega
        rw [this, List.drop_succ_cons]
      rw [hstep]
      exact hfind

/-- `BrickByBrick.next_brick` is idempotent after a successful call. -/
lemma bbbNext_stable (w : Wall) (s : BState) (b : Brick) (s' : BState)
    (h : bbbNext w s = (some b, s')) : bbbNext w s' = (some b, s') := by
  unfold bbbNext at h
  cases hf : bbbFind s.placed (w.courses.drop s.current_course) s.current_course with
  | some p =>
    obtain ⟨b0, cc'⟩ := p
    rw [hf] at h
    injection h with h1 h2
    injection h1 with hb
    subst hb
    subst h2
    obtain ⟨hle, hfind⟩ := bbbFind_restart s.placed _ _ _ _ hf
    rw [List.drop_drop] at hfind
    have harith : s.current_course + (cc' - s.current_course) = cc' := by omega
    rw [harith] at hfind
    unfold bbbNext
    dsimp only
    rw [hfind]
  | none =>
    rw [hf] at h
    simp at h

/-- Unfolding of a true `brick_condition` for the envelope scheduler. -/
lemma lcsCondition_elim (cfg : LCfg) (s : LState) (b : Brick)
    (h : lcsCondition cfg s b = true) :
    b.bid ∉ s.placed ∧
    s.current_stride_x_min ≤ b.x_start ∧
    b.x_start < s.current_stride_x_min + cfg.env_w ∧
    s.current_stride_x_min < b.x_end ∧
    b.x_end ≤ s.current_stride_x_min + cfg.env_w ∧
    (b.row = 0 ∨ ∀ sid ∈ b.supports, sid ∈ s.placed) := by
  unfold lcsCondition at h
  by_cases h1 : b.bid ∈ s.placed
  · rw [if_pos h1] at h
    exact absurd h (by simp)
  · rw [if_neg h1] at h
    dsimp only at h
    by_cases h2 : s.current_stride_x_min ≤ b.x_start ∧
        b.x_start < s.current_stride_x_min + cfg.env_w
    · rw [if_neg (not_not_intro h2)] at h
      by_cases h3 : s.current_stride_x_min < b.x_end ∧
          b.x_end ≤ s.current_stride_x_min + cfg.env_w
      · rw [if_neg (not_not_intro h3)] at h
        refine ⟨h1, h2.1, h2.2, h3.1, h3.2, ?_⟩
        by_cases h4 : b.row = 0
        · exact Or.inl h4
        · rw [if_neg h4] at h
          refine Or.inr ?_
          intro sid hsid
          have := List.all_eq_true.mp h sid hsid
          exact of_decide_eq_true this
      · rw [if_pos h3] at h
        exact absurd h (by simp)
    · rw [if_pos h2] at h
      exact absurd h (by simp)

def brickC8 : Brick := { bid := 0, length := 210, row := 0, x_start := 0, x_end := 210 }

/-- C3: every brick returned by `LimitedCourseStride.next_brick` is
unplaced, lies fully inside the horizontal window of the state in which
it is returned (`x_min ≤ x_start` and `x_end ≤ x_min + envelope_width`,
with the strict bounds that reject a straddling brick), is on the ground
row or has all supports placed, and carries the current stride as its
recorded tag — so a brick placed right after the query lies within the
window recorded for its assigned stride at the moment of placement. -/
theorem lcs_next_brick_satisfies_window (cfg : LCfg) (f : ℕ) (s : LState)
    (b : Brick) (s' : LState)
    (h : nextBrickAux cfg f s = some (some b, s')) :
    b.bid ∉ s'.placed ∧
    s'.current_stride_x_min ≤ b.x_start ∧
    b.x_end ≤ s'.current_stride_x_min + cfg.env_w ∧
    b.x_start < s'.current_stride_x_min + cfg.env_w ∧
    s'.current_stride_x_min < b.x_end ∧
    (b.row = 0 ∨ ∀ sid ∈ b.supports, sid ∈ s'.placed) ∧
    s'.tags b.bid = s'.current_stride := by
  obtain ⟨hcond, htag, hmem⟩ := nextBrickAux_some_spec cfg f s b s' h
  obtain ⟨h1, h2, h3, h4, h5, h6⟩ := lcsCondition_elim cfg s' b hcond
  exact ⟨h1, h2, h5, h3, h4, h6, htag⟩

/-- Witness for `lcs_next_brick_satisfies_window`. -/
theorem lcs_next_brick_satisfies_window_witness :
    (nextBrickAux cfgC8 1 stC8 = some (some brickC8, tagBrick stC8 brickC8)) ∧
    (brickC8.bid ∉ (tagBrick stC8 brickC8).placed ∧
     (tagBrick stC8 brickC8).current_stride_x_min ≤ brickC8.x_start ∧
     brickC8.x_end ≤ (tagBrick stC8 brickC8).current_stride_x_min + cfgC8.env_w ∧
     brickC8.x_start < (tagBrick stC8 brickC8).current_stride_x_min + cfgC8.env_w ∧
     (tagBrick stC8 brickC8).current_stride_x_min < brickC8.x_end ∧
     (brickC8.row = 0 ∨ ∀ sid ∈ brickC8.supports, sid ∈ (tagBrick stC8 brickC8).placed) ∧
     (tagBrick stC8 brickC8).tags brickC8.bid = (tagBrick stC8 brickC8).current_stride) :=
  ⟨rfl, lcs_next_brick_satisfies_window cfgC8 1 stC8 brickC8 (tagBrick stC8 brickC8) rfl⟩

def brickC7 : Brick := { bid := 5, length := 210, row := 1, x_start := 0, x_end := 210 }

def wallC7 : Wall := ⟨210, 125/2, [⟨210, []⟩, ⟨210, [brickC7]⟩]⟩

/-- C7: for both schedulers, whenever `next_brick` returns a brick,
calling `next_brick` again without placing it returns the same brick
(with the same stride tag re-applied, for the envelope scheduler) and
leaves the scheduler and wall state exactly as they were — the candidate
query is a safe, idempotent operation. -/
theorem next_brick_idempotent_query :
    (∀ (w : Wall) (s : BState) (b : Brick) (s' : BState),
        bbbNext w s = (some b, s') → bbbNext w s' = (some b, s')) ∧
    (∀ (cfg : LCfg) (f : ℕ) (s : LState) (b : Brick) (s' : LState),
        nextBrickAux cfg f s = some (some b, s') →
        ∀ f' : ℕ, nextBrickAux cfg (f' + 1) s' = some (some b, s')) :=
  ⟨bbbNext_stable, fun cfg f s b s' h f' => nextBrickAux_some_stable cfg f s b s' h f'⟩

/-- Witness for `next_brick_idempotent_query`. -/
theorem next_brick_idempotent_query_witness :
    (bbbNext wallC7 bbbStart = (some brickC7, BState.mk [] 1)) ∧
    (bbbNext wallC7 (BState.mk [] 1) = (some brickC7, BState.mk [] 1)) ∧
    (nextBrickAux cfgC8 1 stC8 = some (some brickC8, tagBrick stC8 brickC8)) ∧
    (nextBrickAux cfgC8 1 (tagBrick stC8 brickC8)
        = some (some brickC8, tagBrick stC8 brickC8)) :=
  ⟨by decide, next_brick_idempotent_query.1 wallC7 bbbStart brickC7 (BState.mk [] 1) (by decide),
   rfl, next_brick_idempotent_query.2 cfgC8 1 stC8 brickC8 (tagBrick stC8 brickC8) rfl 0⟩

/-- Dependency soundness: every placed brick above the ground row has all
its supports placed. -/
def DepSound (w : Wall) (placed : List ℕ) : Prop :=
  ∀ b ∈ allBricks w, b.bid ∈ placed → 0 < b.row → ∀ sid ∈ b.supports, sid ∈ placed

instance (w : Wall) (placed : List ℕ) : Decidable (DepSound w placed) := by
  unfold DepSound
  infer_instance

/-- Distinct bricks of the wall have distinct object identities (true of
any Python wall, where `bid` stands for object identity). -/
def WallIdsNodup (w : Wall) : Prop := ((allBricks w).map (·.bid)).Nodup

instance (w : Wall) : Decidable (WallIdsNodup w) := by
  unfold WallIdsNodup
  infer_instance

/-- States reachable by driving a `BrickByBrick` scheduler on a fresh
wall with any sequence of `next_brick` / `place_next_brick` calls
(`complete_stride` is not implemented by this scheduler: it raises
`NotImplementedError` before mutating anything). -/
inductive BReach (w : Wall) : BState → Prop where
  | start : BReach w bbbStart
  | next (s : BState) : BReach w s → BReach w (bbbNext w s).2
  | placeStep (s : BState) : BReach w s → BReach w (bbbPlaceNext w s).2

/-- States reachable by driving a `LimitedCourseStride` scheduler from
its freshly constructed state with any sequence of `next_brick` /
`place_next_brick` / `complete_stride` calls that return. -/
inductive LReach (cfg : LCfg) (s0 : LState) : LState → Prop where
  | start : LReach cfg s0 s0
  | next (f : ℕ) (s : LState) (o : Option Brick) (s' : LState) :
      LReach cfg s0 s → nextBrickAux cfg f s = some (o, s') → LReach cfg s0 s'
  | placeStep (f : ℕ) (s : LState) (ok : Bool) (s' : LState) :
      LReach cfg s0 s → lcsPlaceNext cfg f s = some (ok, s') → LReach cfg s0 s'
  | strideStep (f : ℕ) (s : LState) (n : ℕ) (s' : LState) :
      LReach cfg s0 s → completeStride cfg f s = some (n, s') → LReach cfg s0 s'

/-- Unfolding of a true `brick_condition` for the baseline scheduler. -/
lemma bbbCondition_elim (placed : List ℕ) (b : Brick)
    (h : bbbCondition placed b = true) :
    b.bid ∉ placed ∧ (b.row = 0 ∨ ∀ sid ∈ b.supports, sid ∈ placed) := by
  unfold bbbCondition at h
  by_cases h1 : b.bid ∈ placed
  · rw [if_pos h1] at h
    exact absurd h (by simp)
  · rw [if_neg h1] at h
    refine ⟨h1, ?_⟩
    by_cases h4 : b.row = 0
    · exact Or.inl h4
    · rw [if_neg h4] at h
      refine Or.inr fun sid hsid => ?_
      exact of_decide_eq_true (List.all_eq_true.mp h sid hsid)

/-- `BrickByBrick.next_brick` never touches the placement trace. -/
lemma bbbNext_placed (w : Wall) (s : BState) :
    ((bbbNext w s).2).placed = s.placed := by
  unfold bbbNext
  cases hf : bbbFind s.placed (w.courses.drop s.current_course) s.current_course with
  | some p => obtain ⟨b, cc⟩ := p; rfl
  | none => rfl

/-- A brick found by `bbbFind` satisfies the condition and lies in the
scanned courses. -/
lemma bbbFind_sound (placed : List ℕ) :
    ∀ (rest : List Course) (cc : ℕ) (b : Brick) (cc' : ℕ),
      bbbFind placed rest cc = some (b, cc') →
      bbbCondition placed b = true ∧ ∃ c ∈ rest, b ∈ c.bricks := by
  intro rest
  induction rest with
  | nil => intro cc b cc' h; simp [bbbFind] at h
  | cons c rest ih =>
    intro cc b cc' h
    rw [bbbFind] at h
    cases hf : c.bricks.find? (bbbCondition placed) with
    | some b0 =>
      rw [hf] at h
      injection h with h1
      injection h1 with hb hcc
      subst hb
      exact ⟨List.find?_some hf,
        c, List.mem_cons_self c rest, List.mem_of_find?_eq_some hf⟩
    | none =>
      rw [hf] at h
      obtain ⟨hcond, c1, hc1, hb1⟩ := ih (cc + 1) b cc' h
      exact ⟨hcond, c1, List.mem_cons_of_mem c hc1, hb1⟩

/-- A successful `BrickByBrick.next_brick` returns a wall brick that
satisfies `brick_condition`. -/
lemma bbbNext_sound (w : Wall) (s : BState) (b : Brick) (s' : BState)
    (h : bbbNext w s = (some b, s')) :
    bbbCondition s.placed b = true ∧ b ∈ allBricks w := by
  unfold bbbNext at h
  cases hf : bbbFind s.placed (w.courses.drop s.current_course) s.current_course with
  | some p =>
    obtain ⟨b0, cc'⟩ := p
    rw [hf] at h
    injection h with h1 h2
    injection h1 with hb
    subst hb
    obtain ⟨hcond, c, hc, hbc⟩ := bbbFind_sound s.placed _ _ _ _ hf
    refine ⟨hcond, ?_⟩
    unfold allBricks
    rw [List.mem_flatten]
    exact ⟨c.bricks, List.mem_map.mpr ⟨c, List.mem_of_mem_drop hc, rfl⟩, hbc⟩
  | none =>
    rw [hf] at h
    simp at h

/-- Placing a wall brick whose supports are placed (unless it is on the
ground row) preserves dependency soundness. -/
lemma DepSound.place (w : Wall) (placed : List ℕ)
    (hnodup : WallIdsNodup w) (hds : DepSound w placed) (b : Brick)
    (hb : b ∈ allBricks w)
    (hsup : 0 < b.row → ∀ sid ∈ b.supports, sid ∈ placed) :
    DepSound w (placed ++ [b.bid]) := by
  intro b' hb' hmem hrow sid hsid
  rw [List.mem_append] at hmem
  rcases hmem with hmem | hmem
  · exact List.mem_append_left _ (hds b' hb' hmem hrow sid hsid)
  · have hbid : b'.bid = b.bid := by
      simpa using hmem
    have hbb : b' = b :=
      List.inj_on_of_nodup_map hnodup hb' hb hbid
    subst hbb
    exact List.mem_append_left _ (hsup hrow sid hsid)

/-- Dependency soundness is preserved by one placement through the
envelope scheduler's candidate query. -/
lemma lcs_depSound_place (cfg : LCfg) (hnodup : WallIdsNodup cfg.wall)
    (f : ℕ) (s : LState) (b : Brick) (s1 : LState)
    (hnb : nextBrickAux cfg f s = some (some b, s1))
    (hds : DepSound cfg.wall s.placed) :
    DepSound cfg.wall (placeBrick s1 b).placed := by
  obtain ⟨hcond, _, hmem⟩ := nextBrickAux_some_spec cfg f s b s1 hnb
  have hpl := nextBrickAux_placed cfg f s (some b) s1 hnb
  obtain ⟨_, _, _, _, _, hsup⟩ := lcsCondition_elim cfg s1 b hcond
  show DepSound cfg.wall (s1.placed ++ [b.bid])
  rw [hpl]
  refine DepSound.place cfg.wall s.placed hnodup hds b hmem ?_
  intro hrow sid hsid
  rcases hsup with h0 | hall
  · omega
  · rw [← hpl]
    exact hall sid hsid

/-- `complete_stride` preserves dependency soundness. -/
lemma completeStrideAux_depSound (cfg : LCfg) (hnodup : WallIdsNodup cfg.wall) :
    ∀ (f : ℕ) (start : ℤ) (cnt : ℕ) (s : LState) (n : ℕ) (s' : LState),
      completeStrideAux cfg start f cnt s = some (n, s') →
      DepSound cfg.wall s.placed → DepSound cfg.wall s'.placed := by
  intro f
  induction f with
  | zero => intro start cnt s n s' h; simp [completeStrideAux] at h
  | succ f ih =>
    intro start cnt s n s' h hds
    rw [completeStrideAux] at h
    cases hnb : nextBrickAux cfg (f + 1) s with
    | none => rw [hnb] at h; exact absurd h (by simp)
    | some r =>
      obtain ⟨o, s1⟩ := r
      rw [hnb] at h
      cases o with
      | none =>
        dsimp only at h
        injection h with h1
        injection h1 with hn hs
        subst hs
        rw [nextBrickAux_placed cfg (f + 1) s none s1 hnb]
        exact hds
      | some b =>
        dsimp only at h
        split at h
        · injection h with h1
          injection h1 with hn hs
          subst hs
          rw [nextBrickAux_placed cfg (f + 1) s (some b) s1 hnb]
          exact hds
        · exact ih start (cnt + 1) (placeBrick s1 b) n s' h
            (lcs_depSound_place cfg hnodup (f + 1) s b s1 hnb hds)

/-- C2: for both schedulers and every state reachable by any sequence of
`next_brick` / `place_next_brick` / `complete_stride` calls from a fresh
scheduler, every placed brick with `row > 0` has all bricks in its
`supports` list already placed (equivalently, every non-ground brick is
placed strictly after all of its supports). -/
theorem dependency_soundness :
    (∀ (w : Wall), WallIdsNodup w →
      ∀ s, BReach w s → DepSound w s.placed) ∧
    (∀ (w : Wall) (mc : ℤ) (env : ℤ × ℤ) (cfg : LCfg) (s0 : LState),
      WallIdsNodup w → lcsStart w mc env = some (cfg, s0) →
      ∀ s, LReach cfg s0 s → DepSound cfg.wall s.placed) := by
  constructor
  · intro w hnodup s hreach
    induction hreach with
    | start => intro b _ hmem; simp [bbbStart] at hmem
    | next s hr ih =>
      rw [bbbNext_placed w s]
      exact ih
    | placeStep s hr ih =>
      unfold bbbPlaceNext
      cases hnb : bbbNext w s with
      | mk o s1 =>
        cases o with
        | none =>
          dsimp only
          have hpl : s1.placed = s.placed := by
            have h0 := bbbNext_placed w s
            rw [hnb] at h0
            exact h0
          show DepSound w s1.placed
          rw [hpl]
          exact ih
        | some b =>
          dsimp only
          obtain ⟨hcond, hmem⟩ := bbbNext_sound w s b s1 hnb
          obtain ⟨_, hsup⟩ := bbbCondition_elim s.placed b hcond
          have hpl : s1.placed = s.placed := by
            have := bbbNext_placed w s
            rw [hnb] at this
            exact this
          show DepSound w (s1.placed ++ [b.bid])
          rw [hpl]
          refine DepSound.place w s.placed hnodup ih b hmem ?_
          intro hrow sid hsid
          rcases hsup with h0 | hall
          · omega
          · exact hall sid hsid
  · intro w mc env cfg s0 hnodup hstart s hreach
    have hcfg : cfg.wall = w ∧ s0.placed = [] := by
      by_cases hmc : mc = 0
      · simp [lcsStart, hmc] at hstart
      · rw [lcsStart, if_neg hmc] at hstart
        injection hstart with h2
        injection h2 with hcfg hs0
        subst hcfg
        subst hs0
        exact ⟨rfl, rfl⟩
    have hnodup' : WallIdsNodup cfg.wall := hcfg.1 ▸ hnodup
    induction hreach with
    | start => intro b _ hmem; rw [hcfg.2] at hmem; simp at hmem
    | next f s o s' hr hnb ih =>
      rw [nextBrickAux_placed cfg f s o s' hnb]
      exact ih
    | placeStep f s ok s' hr hpn ih =>
      unfold lcsPlaceNext at hpn
      cases hnb : nextBrickAux cfg f s with
      | none => rw [hnb] at hpn; exact absurd hpn (by simp)
      | some r =>
        obtain ⟨o, s1⟩ := r
        rw [hnb] at hpn
        cases o with
        | none =>
          dsimp only at hpn
          injection hpn with h1
          injection h1 with hok hs
          subst hs
          rw [nextBrickAux_placed cfg f s none s1 hnb]
          exact ih
        | some b =>
          dsimp only at hpn
          injection hpn with h1
          injection h1 with hok hs
          subst hs
          exact lcs_depSound_place cfg hnodup' f s b s1 hnb ih
    | strideStep f s n s' hr hcs ih =>
      exact completeStrideAux_depSound cfg hnodup' f s.current_stride 0 s n s' hcs ih

/-- The constructor run `LimitedCourseStride(wallC8, 4, (800, 1300))`
produces exactly `cfgC8`/`stC8`. -/
lemma lcsStart_wallC8 : lcsStart wallC8 4 (800, 1300) = some (cfgC8, stC8) := by
  simp only [lcsStart, if_neg (by norm_num : ¬ (4 : ℤ) = 0)]
  norm_num [wallC8, cfgC8, stC8]
  norm_num [Int.ceil_eq_iff]

/-- Witness for `dependency_soundness` at the two concrete walls. -/
theorem dependency_soundness_witness :
    (WallIdsNodup wallC7 ∧ DepSound wallC7 bbbStart.placed) ∧
    (WallIdsNodup wallC8 ∧ DepSound cfgC8.wall stC8.placed) :=
  ⟨⟨by decide, dependency_soundness.1 wallC7 (by decide) bbbStart BReach.start⟩,
   ⟨by decide, dependency_soundness.2 wallC8 4 (800, 1300) cfgC8 stC8 (by decide)
      lcsStart_wallC8 stC8 LReach.start⟩⟩

/-- `next_brick` is deterministic across fuels (fuel only bounds the
internal loop; any two returning runs agree). -/
lemma nextBrickAux_det (cfg : LCfg) (f1 f2 : ℕ) (s : LState)
    (r1 r2 : Option Brick × LState)
    (h1 : nextBrickAux cfg f1 s = some r1)
    (h2 : nextBrickAux cfg f2 s = some r2) : r1 = r2 := by
  have g1 := nextBrickAux_mono cfg f1 s r1 h1 (max f1 f2) (le_max_left _ _)
  have g2 := nextBrickAux_mono cfg f2 s r2 h2 (max f1 f2) (le_max_right _ _)
  rw [g1] at g2
  injection g2

/-- `place` does not change the stride tags. -/
lemma placeBrick_tags (s : LState) (b : Brick) :
    (placeBrick s b).tags = s.tags := rfl

/-- Tags of already-placed bricks survive a whole `complete_stride`
call. -/
lemma completeStrideAux_tags_of_placed (cfg : LCfg) :
    ∀ (f : ℕ) (start : ℤ) (cnt : ℕ) (s : LState) (n : ℕ) (s' : LState),
      completeStrideAux cfg start f cnt s = some (n, s') →
      ∀ id ∈ s.placed, s'.tags id = s.tags id := by
  intro f
  induction f with
  | zero => intro start cnt s n s' h; simp [completeStrideAux] at h
  | succ f ih =>
    intro start cnt s n s' h id hid
    rw [completeStrideAux] at h
    cases hnb : nextBrickAux cfg (f + 1) s with
    | none => rw [hnb] at h; exact absurd h (by simp)
    | some r =>
      obtain ⟨o, s1⟩ := r
      rw [hnb] at h
      cases o with
      | none =>
        dsimp only at h
        injection h with h1
        injection h1 with hn hs
        subst hs
        exact nextBrickAux_tags_of_placed cfg (f + 1) s none s1 hnb id hid
      | some b =>
        dsimp only at h
        split at h
        · injection h with h1
          injection h1 with hn hs
          subst hs
          exact nextBrickAux_tags_of_placed cfg (f + 1) s (some b) s1 hnb id hid
        · have hpl := nextBrickAux_placed cfg (f + 1) s (some b) s1 hnb
          have hid1 : id ∈ (placeBrick s1 b).placed := by
            show id ∈ s1.placed ++ [b.bid]
            rw [hpl]
            exact List.mem_append_left _ hid
          have htail := ih start (cnt + 1) (placeBrick s1 b) n s' h id hid1
          rw [htail, placeBrick_tags]
          exact nextBrickAux_tags_of_placed cfg (f + 1) s (some b) s1 hnb id hid

/-- Full specification of the `complete_stride` loop: it extends the
trace by bricks all tagged with the observed start stride, returns how
many it placed, and if the next candidate query succeeds afterwards it
returns an unplaced brick of a different stride with the state
untouched. -/
lemma completeStrideAux_spec (cfg : LCfg) :
    ∀ (f : ℕ) (start : ℤ) (cnt : ℕ) (s : LState) (n : ℕ) (s' : LState),
      completeStrideAux cfg start f cnt s = some (n, s') →
      (∃ newly : List ℕ, s'.placed = s.placed ++ newly ∧ n = cnt + newly.length ∧
        ∀ id ∈ newly, s'.tags id = start) ∧
      (∀ (f' : ℕ) (b : Brick) (s'' : LState),
          nextBrickAux cfg f' s' = some (some b, s'') →
          s'' = s' ∧ b.bid ∉ s'.placed ∧ s'.tags b.bid ≠ start) := by
  intro f
  induction f with
  | zero => intro start cnt s n s' h; simp [completeStrideAux] at h
  | succ f ih =>
    intro start cnt s n s' h
    rw [completeStrideAux] at h
    cases hnb : nextBrickAux cfg (f + 1) s with
    | none => rw [hnb] at h; exact absurd h (by simp)
    | some r =>
      obtain ⟨o, s1⟩ := r
      rw [hnb] at h
      cases o with
      | none =>
        dsimp only at h
        injection h with h1
        injection h1 with hn hs
        subst hs
        subst hn
        have hpl := nextBrickAux_placed cfg (f + 1) s none s1 hnb
        refine ⟨⟨[], by simp [hpl], by simp, by simp⟩, ?_⟩
        intro f' b s'' hq
        have hstable := nextBrickAux_none_stable cfg (f + 1) s s1 hnb
        rcases f' with _ | g
        · simp [nextBrickAux] at hq
        · have := nextBrickAux_det cfg (g + 1) (g + 1) s1 _ _ hq (hstable g)
          exact absurd this (by simp)
      | some b =>
        dsimp only at h
        split at h
        · rename_i htag
          injection h with h1
          injection h1 with hn hs
          subst hs
          subst hn
          have hpl := nextBrickAux_placed cfg (f + 1) s (some b) s1 hnb
          obtain ⟨hcond, htg, _⟩ := nextBrickAux_some_spec cfg (f + 1) s b s1 hnb
          refine ⟨⟨[], by simp [hpl], by simp, by simp⟩, ?_⟩
          intro f' b2 s'' hq
          have hstable := nextBrickAux_some_stable cfg (f + 1) s b s1 hnb
          rcases f' with _ | g
          · simp [nextBrickAux] at hq
          · have hdet := nextBrickAux_det cfg (g + 1) (g + 1) s1 _ _ (hstable g) hq
            injection hdet with ho hs2
            injection ho with hb2
            subst hb2
            subst hs2
            obtain ⟨hb_unpl, _⟩ := lcsCondition_elim cfg s1 b hcond
            exact ⟨rfl, hb_unpl, htag⟩
        · rename_i htag
          have hstart : s1.tags b.bid = start := by
            by_contra hne
            exact htag hne
          have hpl := nextBrickAux_placed cfg (f + 1) s (some b) s1 hnb
          obtain ⟨⟨newly2, hplaced2, hn2, htags2⟩, hstop⟩ :=
            ih start (cnt + 1) (placeBrick s1 b) n s' h
          refine ⟨⟨b.bid :: newly2, ?_, ?_, ?_⟩, hstop⟩
          · rw [hplaced2]
            show (s1.placed ++ [b.bid]) ++ newly2 = s.placed ++ b.bid :: newly2
            rw [hpl, List.append_assoc]
            rfl
          · rw [hn2]
            simp only [List.length_cons]
            omega
          · intro id hid
            rcases List.mem_cons.mp hid with rfl | hid2
            · have hmem : b.bid ∈ (placeBrick s1 b).placed := by
                show b.bid ∈ s1.placed ++ [b.bid]
                simp
              have := completeStrideAux_tags_of_placed cfg f start (cnt + 1)
                (placeBrick s1 b) n s' h b.bid hmem
              rw [this, placeBrick_tags]
              exact hstart
            · exact htags2 id hid2

/-- The state in which `complete_stride` leaves the `cfgC8` scheduler. -/
def stC4final : LState where
  placed := [0]
  tags := fun i => if i = 0 then 0 else -1
  current_section := 1
  current_stride := 0
  platform_moves := 0
  current_stride_x_min := 0
  current_stride_y_min := 0
  direction := Direction.L2R

/-- C4: `complete_stride` only places bricks whose tagged stride equals
the `current_stride` observed at the start of the call (the trace grows
exactly by those bricks), returns exactly the number of bricks it
placed, and when it stops because a returned candidate carries a
different (later) stride tag, that candidate is left unplaced and the
next `next_brick` call returns it again with the state unchanged. -/
theorem complete_stride_batch_boundary (cfg : LCfg) (fuel : ℕ) (s : LState)
    (n : ℕ) (s' : LState) (h : completeStride cfg fuel s = some (n, s')) :
    s'.placed = s.placed ++ s'.placed.drop s.placed.length ∧
    n + s.placed.length = s'.placed.length ∧
    (∀ id ∈ s'.placed.drop s.placed.length, s'.tags id = s.current_stride) ∧
    (∀ (f' : ℕ) (b : Brick) (s'' : LState),
        nextBrickAux cfg f' s' = some (some b, s'') →
        s'' = s' ∧ b.bid ∉ s'.placed ∧ s'.tags b.bid ≠ s.current_stride) := by
  unfold completeStride at h
  obtain ⟨⟨newly, hpl, hn, htags⟩, hstop⟩ :=
    completeStrideAux_spec cfg fuel s.current_stride 0 s n s' h
  have hdrop : s'.placed.drop s.placed.length = newly := by
    rw [hpl, List.drop_left]
  refine ⟨?_, ?_, ?_, hstop⟩
  · rw [hdrop]
    exact hpl
  · rw [hpl, List.length_append]
    omega
  · rw [hdrop]
    exact htags

/-- Witness for `complete_stride_batch_boundary`: a concrete
`complete_stride` run over `cfgC8` that places the single brick and
stops when the scheduler reports no further candidate. -/
theorem complete_stride_batch_boundary_witness :
    completeStride cfgC8 3 stC8 = some (1, stC4final) ∧
    (stC4final.placed = stC8.placed ++ stC4final.placed.drop stC8.placed.length ∧
     1 + stC8.placed.length = stC4final.placed.length ∧
     (∀ id ∈ stC4final.placed.drop stC8.placed.length,
        stC4final.tags id = stC8.current_stride) ∧
     (∀ (f' : ℕ) (b : Brick) (s'' : LState),
        nextBrickAux cfgC8 f' stC4final = some (some b, s'') →
        s'' = stC4final ∧ b.bid ∉ stC4final.placed ∧
        stC4final.tags b.bid ≠ stC8.current_stride)) :=
  ⟨rfl, complete_stride_batch_boundary cfgC8 3 stC8 1 stC4final rfl⟩

/-- Support relations point one course down: every support id of a brick
of course `i` is the id of a brick of course `i - 1` (so ground-course
bricks have none). -/
def SupportsBelow (w : Wall) : Prop :=
  ∀ i : ℕ, ∀ b ∈ (w.courses.getD i ⟨0, []⟩).bricks, ∀ sid ∈ b.supports,
    0 < i ∧ sid ∈ ((w.courses.getD (i - 1) ⟨0, []⟩).bricks.map (·.bid))

lemma getD_range_map {α : Type} (n : ℕ) (f : ℕ → α) (i : ℕ) (d : α) :
    ((List.range n).map f).getD i d = if i < n then f i else d := by
  rw [List.getD_eq_getElem?_getD, List.getElem?_map]
  by_cases h : i < n
  · rw [List.getElem?_range h]
    simp [h]
  · rw [List.getElem?_eq_none (by simpa using h)]
    simp [h]

lemma mem_allBricks_iff (w : Wall) (b : Brick) :
    b ∈ allBricks w ↔
      ∃ i : ℕ, i < w.courses.length ∧ b ∈ (w.courses.getD i ⟨0, []⟩).bricks := by
  unfold allBricks
  rw [List.mem_flatten]
  constructor
  · rintro ⟨l, hl, hbl⟩
    rw [List.mem_map] at hl
    obtain ⟨c, hc, rfl⟩ := hl
    rw [List.mem_iff_getElem] at hc
    obtain ⟨i, hi, rfl⟩ := hc
    exact ⟨i, hi, by rw [List.getD_eq_getElem _ _ hi]; exact hbl⟩
  · rintro ⟨i, hi, hb⟩
    refine ⟨(w.courses.getD i ⟨0, []⟩).bricks, ?_, hb⟩
    rw [List.mem_map]
    exact ⟨w.courses.getD i ⟨0, []⟩, by rw [List.getD_eq_getElem _ _ hi]; exact List.getElem_mem _, rfl⟩

lemma assign_courses_getD (w : Wall) (hlen : ¬ w.courses.length < 2)
    (i : ℕ) (hi : i < w.courses.length) :
    (assignSupportRelations w).courses.getD i ⟨0, []⟩ =
      (let c := w.courses.getD i ⟨0, []⟩
       { c with bricks := c.bricks.map (fun b =>
          let sup : List ℕ :=
            if i = 0 then []
            else (((w.courses.getD (i-1) ⟨0, []⟩).bricks.filter
                    (fun s => overlapsBelow b s)).map (·.bid))
          let lds : List ℕ :=
            if i + 1 < w.courses.length then
              (((w.courses.getD (i+1) ⟨0, []⟩).bricks.filter
                  (fun t => overlapsBelow t b)).map (·.bid))
            else []
          { b with supports := b.supports ++ sup, loads := b.loads ++ lds }) }) := by
  unfold assignSupportRelations
  rw [if_neg hlen]
  dsimp only
  rw [getD_range_map, if_pos hi]

lemma assign_courses_length (w : Wall) :
    (assignSupportRelations w).courses.length = w.courses.length := by
  unfold assignSupportRelations
  split
  · rfl
  · simp

/-- `assign_support_relations` neither adds, removes nor re-identifies
bricks: the per-course id lists are unchanged. -/
lemma assign_ids (w : Wall) :
    (allBricks (assignSupportRelations w)).map (·.bid) =
      (allBricks w).map (·.bid) := by
  by_cases hlen : w.courses.length < 2
  · unfold assignSupportRelations
    rw [if_pos hlen]
  · unfold allBricks
    rw [List.map_flatten, List.map_flatten]
    congr 1
    rw [List.map_map, List.map_map]
    apply List.ext_getElem
    · simp [assign_courses_length]
    · intro i h1 h2
      have hi : i < w.courses.length := by
        simpa using h2
      rw [List.getElem_map, List.getElem_map]
      have hi' : i < (assignSupportRelations w).courses.length := by
        rw [assign_courses_length]
        exact hi
      have hgetD : (assignSupportRelations w).courses[i] =
          (assignSupportRelations w).courses.getD i ⟨0, []⟩ :=
        (List.getD_eq_getElem _ _ hi').symm
      have hgetD2 : w.courses[i] = w.courses.getD i ⟨0, []⟩ :=
        (List.getD_eq_getElem _ _ hi).symm
      rw [Function.comp_apply, Function.comp_apply, hgetD, hgetD2,
        assign_courses_getD w hlen i hi]
      dsimp only
      rw [List.map_map]
      rfl

/-- `assign_support_relations` on a wall of fresh bricks (no support
links yet) yields support relations that point one course down. -/
lemma assign_supportsBelow (w : Wall)
    (hfresh : ∀ b ∈ allBricks w, b.supports = []) :
    SupportsBelow (assignSupportRelations w) := by
  intro i b hb sid hsid
  by_cases hlen : w.courses.length < 2
  · have hw : assignSupportRelations w = w := by
      unfold assignSupportRelations
      rw [if_pos hlen]
    rw [hw] at hb
    have hball : b ∈ allBricks w := by
      by_cases hi : i < w.courses.length
      · exact (mem_allBricks_iff w b).mpr ⟨i, hi, hb⟩
      · rw [List.getD_eq_default _ _ (by simpa using hi)] at hb
        simp at hb
    rw [hfresh b hball] at hsid
    simp at hsid
  · by_cases hi : i < w.courses.length
    · rw [assign_courses_getD w hlen i hi] at hb
      dsimp only at hb
      rw [List.mem_map] at hb
      obtain ⟨b0, hb0, rfl⟩ := hb
      have hb0all : b0 ∈ allBricks w := (mem_allBricks_iff w b0).mpr ⟨i, hi, hb0⟩
      dsimp only at hsid
      rw [hfresh b0 hb0all] at hsid
      rw [List.nil_append] at hsid
      by_cases hi0 : i = 0
      · rw [if_pos hi0] at hsid
        simp at hsid
      · rw [if_neg hi0] at hsid
        have h0 : 0 < i := Nat.pos_of_ne_zero hi0
        refine ⟨h0, ?_⟩
        rw [List.mem_map] at hsid
        obtain ⟨s0, hs0, rfl⟩ := hsid
        have hs0' : s0 ∈ (w.courses.getD (i-1) ⟨0, []⟩).bricks :=
          List.mem_of_mem_filter hs0
        have hi1 : i - 1 < w.courses.length := by omega
        rw [assign_courses_getD w hlen (i-1) hi1]
        dsimp only
        rw [List.map_map, List.mem_map]
        exact ⟨s0, hs0', rfl⟩
    · rw [List.getD_eq_default _ _ (by rw [assign_courses_length]; simpa using hi)] at hb
      simp at hb

/-- Every brick of every course strictly below index `k` is placed. -/
def coursePrefixPlaced (w : Wall) (placed : List ℕ) (k : ℕ) : Prop :=
  ∀ i < k, ∀ b ∈ (w.courses.getD i ⟨0, []⟩).bricks, b.bid ∈ placed

/-- With every brick placed, the course scan finds nothing. -/
lemma bbbFind_none_of_all_placed (placed : List ℕ) :
    ∀ (rest : List Course) (cc : ℕ),
      (∀ c ∈ rest, ∀ b ∈ c.bricks, b.bid ∈ placed) →
      bbbFind placed rest cc = none := by
  intro rest
  induction rest with
  | nil => intro cc _; rfl
  | cons c rest ih =>
    intro cc hall
    rw [bbbFind]
    have hf : c.bricks.find? (bbbCondition placed) = none := by
      rw [List.find?_eq_none]
      intro b hb
      have := hall c (List.mem_cons_self c rest) b hb
      unfold bbbCondition
      rw [if_pos this]
      simp
    rw [hf]
    exact ih (cc + 1) (fun c' hc' => hall c' (List.mem_cons_of_mem c hc'))

/-- Progress: when all courses below the cursor are fully placed, the
support relations point one course down, and some scanned course still
holds an unplaced brick, the scan succeeds, returns an unplaced wall
brick, and the cursor it leaves keeps the fully-placed-prefix
invariant. -/
lemma bbbFind_progress (w : Wall) (hsb : SupportsBelow w) (placed : List ℕ) :
    ∀ (rest : List Course) (cc : ℕ),
      rest = w.courses.drop cc →
      coursePrefixPlaced w placed cc →
      (∃ c ∈ rest, ∃ b ∈ c.bricks, b.bid ∉ placed) →
      ∃ b cc', bbbFind placed rest cc = some (b, cc') ∧ b.bid ∉ placed ∧
        b ∈ allBricks w ∧ coursePrefixPlaced w placed cc' := by
  intro rest
  induction rest with
  | nil => rintro cc _ _ ⟨c, hc, _⟩; simp at hc
  | cons c rest ih =>
    rintro cc hdrop hpre hex
    have hcc : w.courses[cc]? = some c := by
      have h0 : (w.courses.drop cc)[0]? = some c := by
        rw [← hdrop]
        simp
      rw [List.getElem?_drop] at h0
      simpa using h0
    obtain ⟨hcclen, hceq⟩ := List.getElem?_eq_some_iff.mp hcc
    have hgd : w.courses.getD cc ⟨0, []⟩ = c := by
      rw [List.getD_eq_getElem _ _ hcclen, hceq]
    have hcond_unpl : ∀ b ∈ c.bricks, b.bid ∉ placed →
        bbbCondition placed b = true := by
      intro b hb hunpl
      unfold bbbCondition
      rw [if_neg hunpl]
      by_cases hrow : b.row = 0
      · rw [if_pos hrow]
      · rw [if_neg hrow]
        rw [List.all_eq_true]
        intro sid hsid
        obtain ⟨hpos, hmem⟩ := hsb cc b (by rw [hgd]; exact hb) sid hsid
        rw [List.mem_map] at hmem
        obtain ⟨s0, hs0, rfl⟩ := hmem
        exact decide_eq_true (hpre (cc - 1) (by omega) s0 hs0)
    by_cases hexc : ∃ b ∈ c.bricks, b.bid ∉ placed
    · obtain ⟨b0, hb0, hb0un⟩ := hexc
      have hsome : (c.bricks.find? (bbbCondition placed)).isSome :=
        List.find?_isSome.mpr ⟨b0, hb0, hcond_unpl b0 hb0 hb0un⟩
      obtain ⟨bf, hbf⟩ := Option.isSome_iff_exists.mp hsome
      have hcondf := List.find?_some hbf
      have hunplf : bf.bid ∉ placed := (bbbCondition_elim placed bf hcondf).1
      have hmemf : bf ∈ allBricks w := (mem_allBricks_iff w bf).mpr
        ⟨cc, hcclen, by rw [hgd]; exact List.mem_of_find?_eq_some hbf⟩
      refine ⟨bf, cc, ?_, hunplf, hmemf, hpre⟩
      rw [bbbFind, hbf]
    · push_neg at hexc
      have hfnone : c.bricks.find? (bbbCondition placed) = none := by
        rw [List.find?_eq_none]
        intro b hb
        unfold bbbCondition
        rw [if_pos (hexc b hb)]
        simp
      have hdrop' : rest = w.courses.drop (cc + 1) := by
        have hsplit := List.drop_eq_getElem_cons hcclen
        rw [hceq, ← hdrop] at hsplit
        exact (List.cons.inj hsplit).2
      have hpre' : coursePrefixPlaced w placed (cc + 1) := by
        intro i hi b hb
        rcases Nat.lt_succ_iff_lt_or_eq.mp hi with hlt | hieq
        · exact hpre i hlt b hb
        · subst hieq
          rw [hgd] at hb
          exact hexc b hb
      have hex' : ∃ c' ∈ rest, ∃ b ∈ c'.bricks, b.bid ∉ placed := by
        obtain ⟨c1, hc1, b1, hb1, hb1un⟩ := hex
        rcases List.mem_cons.mp hc1 with rfl | hmem
        · exact absurd (hexc b1 hb1) hb1un
        · exact ⟨c1, hmem, b1, hb1, hb1un⟩
      obtain ⟨b, cc', hfind, hunpl, hmem, hpre2⟩ := ih (cc + 1) hdrop' hpre' hex'
      refine ⟨b, cc', ?_, hunpl, hmem, hpre2⟩
      rw [bbbFind, hfnone]
      exact hfind

/-- Number of wall bricks not yet placed. -/
def unplacedCount (w : Wall) (placed : List ℕ) : ℕ :=
  ((allBricks w).filter (fun b => decide (b.bid ∉ placed))).length

lemma length_filter_le_of_imp {l : List Brick} {p q : Brick → Bool}
    (himp : ∀ x, q x = true → p x = true) :
    (l.filter q).length ≤ (l.filter p).length := by
  induction l with
  | nil => simp
  | cons a l ih =>
    by_cases hq : q a = true
    · rw [List.filter_cons_of_pos hq, List.filter_cons_of_pos (himp a hq)]
      simpa using ih
    · rw [List.filter_cons_of_neg (by simpa using hq)]
      by_cases hp : p a = true
      · rw [List.filter_cons_of_pos hp]
        exact le_trans ih (by simp)
      · rw [List.filter_cons_of_neg (by simpa using hp)]
        exact ih

lemma length_filter_lt_of_imp {l : List Brick} {p q : Brick → Bool}
    (himp : ∀ x, q x = true → p x = true) (b : Brick) (hb : b ∈ l)
    (hpb : p b = true) (hqb : q b = false) :
    (l.filter q).length < (l.filter p).length := by
  induction l with
  | nil => simp at hb
  | cons a l ih =>
    rcases List.mem_cons.mp hb with rfl | hbl
    · rw [List.filter_cons_of_neg (by simp [hqb]), List.filter_cons_of_pos hpb]
      exact Nat.lt_succ_of_le (length_filter_le_of_imp himp)
    · by_cases hq : q a = true
      · rw [List.filter_cons_of_pos hq, List.filter_cons_of_pos (himp a hq)]
        simpa using ih hbl
      · rw [List.filter_cons_of_neg (by simpa using hq)]
        by_cases hp : p a = true
        · rw [List.filter_cons_of_pos hp]
          exact Nat.lt_succ_of_le (le_of_lt (ih hbl))
        · rw [List.filter_cons_of_neg (by simpa using hp)]
          exact ih hbl

/-- Placing an unplaced wall brick strictly decreases the unplaced
count. -/
lemma unplacedCount_place (w : Wall) (placed : List ℕ) (b : Brick)
    (hb : b ∈ allBricks w) (hunpl : b.bid ∉ placed) :
    unplacedCount w (placed ++ [b.bid]) < unplacedCount w placed := by
  unfold unplacedCount
  refine length_filter_lt_of_imp ?_ b hb ?_ ?_
  · intro x hx
    simp only [decide_eq_true_eq] at hx ⊢
    intro hmem
    exact hx (List.mem_append_left _ hmem)
  · simpa using hunpl
  · simp

/-- With no unplaced brick left, the unplaced count is zero and
conversely. -/
lemma unplacedCount_eq_zero_iff (w : Wall) (placed : List ℕ) :
    unplacedCount w placed = 0 ↔ ∀ b ∈ allBricks w, b.bid ∈ placed := by
  unfold unplacedCount
  rw [List.length_eq_zero, List.filter_eq_nil_iff]
  constructor
  · intro h b hb
    have := h b hb
    simpa using this
  · intro h b hb
    simpa using h b hb

/-- Main loop invariant for the baseline driver: with supports pointing
one course down, enough fuel drives the wall to a state where every
brick is placed exactly once and `place_next_brick` reports `False`. -/
lemma bbbRun_spec (w : Wall) (hsb : SupportsBelow w) :
    ∀ (f : ℕ) (s : BState),
      coursePrefixPlaced w s.placed s.current_course →
      (∀ id ∈ s.placed, id ∈ (allBricks w).map (·.bid)) →
      s.placed.Nodup →
      unplacedCount w s.placed < f →
      (∀ b ∈ allBricks w, b.bid ∈ (bbbRun w f s).placed) ∧
      (∀ id ∈ (bbbRun w f s).placed, id ∈ (allBricks w).map (·.bid)) ∧
      (bbbRun w f s).placed.Nodup ∧
      (bbbPlaceNext w (bbbRun w f s)).1 = false := by
  intro f
  induction f with
  | zero => intro s _ _ _ hcount; omega
  | succ f ih =>
    intro s hpre hsub hnodup hcount
    by_cases hall : ∀ b ∈ allBricks w, b.bid ∈ s.placed
    · have hnone : bbbFind s.placed (w.courses.drop s.current_course)
          s.current_course = none := by
        refine bbbFind_none_of_all_placed s.placed _ _ ?_
        intro c hc b hb
        refine hall b ?_
        unfold allBricks
        rw [List.mem_flatten]
        exact ⟨c.bricks, List.mem_map.mpr ⟨c, List.mem_of_mem_drop hc, rfl⟩, hb⟩
      have hplace : bbbPlaceNext w s =
          (false, { s with current_course := max s.current_course w.courses.length }) := by
        unfold bbbPlaceNext bbbNext
        rw [hnone]
      have hrun : bbbRun w (f + 1) s =
          { s with current_course := max s.current_course w.courses.length } := by
        rw [bbbRun, hplace]
      rw [hrun]
      refine ⟨hall, hsub, hnodup, ?_⟩
      have hnone2 : bbbFind s.placed
          (w.courses.drop (max s.current_course w.courses.length))
          (max s.current_course w.courses.length) = none := by
        refine bbbFind_none_of_all_placed s.placed _ _ ?_
        intro c hc b hb
        refine hall b ?_
        unfold allBricks
        rw [List.mem_flatten]
        exact ⟨c.bricks, List.mem_map.mpr ⟨c, List.mem_of_mem_drop hc, rfl⟩, hb⟩
      unfold bbbPlaceNext bbbNext
      rw [hnone2]
    · push_neg at hall
      obtain ⟨b0, hb0mem, hb0un⟩ := hall
      obtain ⟨j, hj, hbj⟩ := (mem_allBricks_iff w b0).mp hb0mem
      have hjcc : s.current_course ≤ j := by
        by_contra hlt
        exact hb0un (hpre j (by omega) b0 hbj)
      have hcdrop : w.courses.getD j ⟨0, []⟩ ∈ w.courses.drop s.current_course := by
        have hb : (w.courses.drop s.current_course)[j - s.current_course]? =
            some w.courses[j] := by
          rw [List.getElem?_drop]
          have : s.current_course + (j - s.current_course) = j := by omega
          rw [this]
          exact List.getElem?_eq_getElem hj
        have hmem := List.getElem?_mem hb
        rw [List.getD_eq_getElem _ _ hj]
        exact hmem
      have hex : ∃ c ∈ w.courses.drop s.current_course,
          ∃ b ∈ c.bricks, b.bid ∉ s.placed :=
        ⟨w.courses.getD j ⟨0, []⟩, hcdrop, b0, hbj, hb0un⟩
      obtain ⟨b, cc', hfind, hbunpl, hbmem, hpre'⟩ :=
        bbbFind_progress w hsb s.placed (w.courses.drop s.current_course)
          s.current_course rfl hpre hex
      have hplace : bbbPlaceNext w s =
          (true, BState.mk (s.placed ++ [b.bid]) cc') := by
        unfold bbbPlaceNext bbbNext
        rw [hfind]
      have hrun : bbbRun w (f + 1) s = bbbRun w f (BState.mk (s.placed ++ [b.bid]) cc') := by
        rw [bbbRun, hplace]
      rw [hrun]
      refine ih (BState.mk (s.placed ++ [b.bid]) cc') ?_ ?_ ?_ ?_
      · intro i hi b' hb'
        exact List.mem_append_left _ (hpre' i hi b' hb')
      · intro id hid
        rcases List.mem_append.mp hid with hid | hid
        · exact hsub id hid
        · rw [List.mem_singleton] at hid
          subst hid
          exact List.mem_map.mpr ⟨b, hbmem, rfl⟩
      · rw [List.nodup_append]
        refine ⟨hnodup, List.nodup_singleton _, ?_⟩
        intro a ha hamem
        rw [List.mem_singleton] at hamem
        subst hamem
        exact hbunpl ha
      · show unplacedCount w (s.placed ++ [b.bid]) < f
        have := unplacedCount_place w s.placed b hbmem hbunpl
        omega

/-- C1: for every wall whose support relations were produced by
`assign_support_relations` (run on a layout of fresh bricks with
distinct identities), driving the `BrickByBrick` scheduler with
`place_next_brick` terminates within one call per brick plus one:
at that point `place_next_brick` returns `False`, `wall.complete` is
true, and the placement trace is a permutation of all brick ids —
every brick was placed exactly once. -/
theorem brick_by_brick_completes_wall (w0 : Wall)
    (hfresh : ∀ b ∈ allBricks w0, b.supports = [])
    (hnodup : WallIdsNodup w0) :
    let w := assignSupportRelations w0
    let final := bbbRun w ((allBricks w).length + 1) bbbStart
    (bbbPlaceNext w final).1 = false ∧
    wallComplete w final.placed = true ∧
    final.placed.Perm ((allBricks w).map (·.bid)) := by
  intro w final
  have hsb : SupportsBelow w := assign_supportsBelow w0 hfresh
  have hids : WallIdsNodup w := by
    unfold WallIdsNodup
    rw [assign_ids]
    exact hnodup
  have hcount : unplacedCount w [] < (allBricks w).length + 1 := by
    have : unplacedCount w [] ≤ (allBricks w).length := by
      unfold unplacedCount
      exact List.length_filter_le _ _
    omega
  obtain ⟨hcov, hsub, hnd, hfalse⟩ :=
    bbbRun_spec w hsb ((allBricks w).length + 1) bbbStart
      (fun i hi => by simp [bbbStart] at hi) (fun id hid => by simp [bbbStart] at hid)
      (by simp [bbbStart]) hcount
  refine ⟨hfalse, ?_, ?_⟩
  · unfold wallComplete
    rw [List.all_eq_true]
    intro b hb
    exact decide_eq_true (hcov b hb)
  · refine List.perm_of_nodup_nodup_toFinset_eq hnd hids ?_
    ext id
    simp only [List.mem_toFinset]
    constructor
    · exact hsub id
    · intro hid
      rw [List.mem_map] at hid
      obtain ⟨b, hb, rfl⟩ := hid
      exact hcov b hb

/-- A fresh two-course wall (one full brick per course, vertically
stacked) used as the witness input for claim C1. -/
def wallC1 : Wall :=
  ⟨210, 125,
   [⟨210, [{ bid := 0, length := 210, row := 0, x_start := 0, x_end := 210 }]⟩,
    ⟨210, [{ bid := 1, length := 210, row := 1, x_start := 0, x_end := 210 }]⟩]⟩

/-- Witness for `brick_by_brick_completes_wall` on `wallC1`. -/
theorem brick_by_brick_completes_wall_witness :
    (∀ b ∈ allBricks wallC1, b.supports = []) ∧
    WallIdsNodup wallC1 ∧
    ((bbbPlaceNext (assignSupportRelations wallC1)
        (bbbRun (assignSupportRelations wallC1)
          ((allBricks (assignSupportRelations wallC1)).length + 1) bbbStart)).1 = false ∧
     wallComplete (assignSupportRelations wallC1)
        (bbbRun (assignSupportRelations wallC1)
          ((allBricks (assignSupportRelations wallC1)).length + 1) bbbStart).placed = true ∧
     (bbbRun (assignSupportRelations wallC1)
          ((allBricks (assignSupportRelations wallC1)).length + 1) bbbStart).placed.Perm
        ((allBricks (assignSupportRelations wallC1)).map (·.bid))) :=
  ⟨by decide, by decide,
   brick_by_brick_completes_wall wallC1 (by decide) (by decide)⟩
